import Mathlib

/-!
# Verification of the TenSQR viral quasispecies reconstruction engine

This file gives a shallow embedding of the core of `TenSQR.py` (nucleotide
statistics, tensor encoding/decoding, the alternating-minimization loop
structure, the successive-clustering read-selection rule, MEC scoring, the
rank-estimation bisection loop, and the post-processing frequency pipeline)
and proves or refutes the specification claims about it.

Conventions:
* SNV-valued matrices (entries in {0..4}: 0 = gap, 1..4 = A,C,G,T) are
  `List (List ℕ)`, a list of rows; numpy 2-D arrays are rectangular, which
  theorems assume through explicit row-length hypotheses where needed.
* `np.argmax` returns the index of the first occurrence of the maximum; it
  raises on an empty axis, which is modelled by `Option`-valued variants at
  the call sites where emptiness can occur.
* Probabilities are exact rationals `ℚ` (the Python floats are abstracted to
  exact arithmetic); `np.inf` sentinels are modelled with `WithTop`.
-/

set_option maxRecDepth 4000

namespace TenSQR

/-- Value of the maximum of a list (numpy `max` over a nonempty axis);
`none` on the empty list, where numpy raises. -/
def listMax {α : Type} [LinearOrder α] : List α → Option α
  | [] => none
  | x :: xs => some (xs.foldl max x)

/-- `np.argmax`: index of the first occurrence of the maximum of a list.
On the empty list (where numpy raises) this returns 0; callers that can
receive an empty axis use `argmaxFirstO` instead. -/
def argmaxFirst {α : Type} [LinearOrder α] (l : List α) : ℕ :=
  match l with
  | [] => 0
  | x :: xs => (x :: xs).findIdx (fun y => decide (xs.foldl max x ≤ y))

/-- `np.argmax` with the empty-axis error made explicit: `none` models the
`ValueError: attempt to get argmax of an empty sequence`. -/
def argmaxFirstO {α : Type} [LinearOrder α] (l : List α) : Option ℕ :=
  match l with
  | [] => none
  | _ :: _ => some (argmaxFirst l)

/-- Entry `(i, j)` of a matrix given as a list of rows (0 outside bounds). -/
def entryOf (M : List (List ℕ)) (i j : ℕ) : ℕ :=
  (M.getD i []).getD j 0

/-- Column `j` of a matrix, as a list running over the rows. -/
def colOf (M : List (List ℕ)) (j : ℕ) : List ℕ :=
  M.map (fun row => row.getD j 0)

/-- `M.shape[1]` of a rectangular matrix: the length of its first row. -/
def nSnvs (M : List (List ℕ)) : ℕ :=
  (M.headD []).length

/-- `ACGT_count` (TenSQR.py lines 14-30), on inputs already known to be 2-D:
returns the `(n_snvs, 4)` matrix whose `(j, c)` entry is the number of reads
carrying nucleotide `c+1` at SNV position `j`:
`out[:, i] = (M_E == (i + 1)).sum(axis=0)` for `i` in `range(4)`. -/
def ACGT_count (M : List (List ℕ)) : List (List ℕ) :=
  (List.range (nSnvs M)).map (fun j =>
    (List.range 4).map (fun c => (colOf M j).count (c + 1)))

/-- A numpy array of the dimensionalities `ACGT_count` can receive; the
function only inspects `ndim`, so payloads of the wrong rank are irrelevant
to the check. -/
inductive NDArray where
  | d0 (x : ℕ)
  | d1 (v : List ℕ)
  | d2 (m : List (List ℕ))
  | d3 (t : List (List (List ℕ)))

/-- `arr.ndim`. -/
def NDArray.ndim : NDArray → ℕ
  | .d0 _ => 0
  | .d1 _ => 1
  | .d2 _ => 2
  | .d3 _ => 3

/-- The rows of a 2-D array (junk value on other ranks, which the guarded
caller never reaches). -/
def NDArray.rows : NDArray → List (List ℕ)
  | .d2 m => m
  | _ => []

/-- `ACGT_count` with its shape guard (lines 24-25): `if M_E.ndim != 2:
raise ValueError("arr should be 2D")`, the raise modelled as `Except.error`. -/
def ACGT_count_checked (a : NDArray) : Except String (List (List ℕ)) :=
  if a.ndim ≠ 2 then .error "arr should be 2D"
  else .ok (ACGT_count a.rows)

/-! ## Tensor encoding and decoding (component C2 of the spec)

`TM_E = np.concatenate((M_E==1, M_E==2, M_E==3, M_E==4), axis=1)`
(lines 164-172), and the decode
`V = np.argmax(Vt.reshape(R, hap_len, 4, order='F'), axis=2) + 1` (line 302).

For `Vt` of shape `(R, 4L)` stored row-major, `reshape(R, L, 4, order='F')`
ravels in Fortran order (first index fastest: `Vt[r, k]` sits at flat
position `r + R·k`) and refills in Fortran order (flat position
`i + R·j + R·L·c` becomes index `[i, j, c]`), so the reshaped entry
`[i, j, c]` is `Vt[i, c·L + j]`: channel `c` reads column block
`c·L .. c·L+L-1`. -/

/-- One row of the one-hot tensor encoding `TM_E`. -/
def oneHotRow (row : List ℕ) : List ℕ :=
  (row.map fun x => if x = 1 then 1 else 0) ++ (row.map fun x => if x = 2 then 1 else 0)
    ++ (row.map fun x => if x = 3 then 1 else 0) ++ (row.map fun x => if x = 4 then 1 else 0)

/-- The tensor-structured read matrix `TM_E` of an SNV matrix. -/
def tensorOf (M : List (List ℕ)) : List (List ℕ) := M.map oneHotRow

/-- The decode of line 302: per position, argmax over the 4 channels of the
Fortran-order reshape, plus 1. -/
def decodeTensor (Vt : List (List ℕ)) (L : ℕ) : List (List ℕ) :=
  Vt.map fun row => (List.range L).map fun j =>
    argmaxFirst [row.getD j 0, row.getD (L + j) 0,
      row.getD (2 * L + j) 0, row.getD (3 * L + j) 0] + 1

/-! ## Read-selection rule of successive clustering (spec §4.5 step 4)

Lines 309-350 of TenSQR.py: the Hamming table and the per-read selection
test against the most dominant haplotype. -/

/-- `binom.pmf(k, n, p)` for integer `0 ≤ k ≤ n`, in exact arithmetic. -/
def binomPmf (k n : ℕ) (p : ℚ) : ℚ :=
  (n.choose k : ℚ) * p ^ k * (1 - p) ^ (n - k)

/-- `HD_table[i, 0] = ((M_E - V[domi_flag,:]) == 0).sum(axis=1)` (line 316):
number of positions where the read agrees with the haplotype. -/
def identCount (row vstar : List ℕ) (L : ℕ) : ℕ :=
  ((List.range L).filter (fun j => row.getD j 0 = vstar.getD j 0)).length

/-- `HD_table[i, 1] = (M_E != 0).sum(axis=1)` (line 319): non-gap count. -/
def nongapCount (row : List ℕ) (L : ℕ) : ℕ :=
  ((List.range L).filter (fun j => row.getD j 0 ≠ 0)).length

/-- `HD_table[i, 2] = HD_table[i, 1] - HD_table[i, 0]` (line 322): the
Hamming distance, as the integer difference computed by numpy. -/
def hdOf (row vstar : List ℕ) (L : ℕ) : ℤ :=
  (nongapCount row L : ℤ) - (identCount row vstar L : ℤ)

/-- `pos = np.where(M_E[i,:] != 0)[0]` (line 335). -/
def nongapPositions (row : List ℕ) (L : ℕ) : List ℕ :=
  (List.range L).filter (fun j => row.getD j 0 ≠ 0)

/-- The variant-probability product of lines 338-344:
`pr_variant *= ACGTcount[pos[j], M_E[i, pos[j]] - 1] / sum(ACGTcount[pos[j], :])`
accumulated left to right from 1. -/
def prVariant (row : List ℕ) (L : ℕ) (acgt : List (List ℕ)) : ℚ :=
  (nongapPositions row L).foldl
    (fun pr j => pr * (((acgt.getD j []).getD (row.getD j 0 - 1) 0 : ℚ)
      / ((acgt.getD j []).sum : ℚ))) 1

/-- `pr_seq = binom.pmf(HD_table[i, 2], HD_table[i, 1], seq_err)` (line 345). -/
def prSeq (row vstar : List ℕ) (L : ℕ) (eps : ℚ) : ℚ :=
  binomPmf (hdOf row vstar L).toNat (nongapCount row L) eps

/-- The selection test for one read (lines 326-350): distance 0 is always
selected; otherwise a read within its mismatch budget is selected iff the
sequencing-error probability exceeds the variant probability. -/
def selectRead (row vstar : List ℕ) (L : ℕ) (misCri : ℕ) (acgt : List (List ℕ))
    (eps : ℚ) : Bool :=
  if hdOf row vstar L = 0 then true
  else if hdOf row vstar L ≤ (misCri : ℤ) then
    decide (prSeq row vstar L eps > prVariant row L acgt)
  else false

/-! ## Alternating-minimization loop structure (spec §4.4)

The while loop of lines 211-217:
`while err_hap > error_thre and err > error_thre and err_Com > error_thre
and ite < max_ite`, with `err`, `err_Com`, `err_hap` initialized to `np.inf`
and recomputed at the end of each iteration (lines 276-288); `err_Com` stays
`np.inf` at the end of iteration 1 since it is only assigned when `ite > 1`.

The numeric content of one iteration (SVD, distances, majority vote) is
abstracted into a trace: `err t` and `errHap t` are the values of `err` and
`err_hap` at the end of iteration `t ≥ 1` (any nonnegative reals can arise),
while `err_Com` is determined by the `err` history. -/

/-- `error_thre = 10**-5` (line 134). -/
def error_thre : ℚ := 1 / 100000

/-- `max_ite = 2000` (line 135). -/
def max_ite : ℕ := 2000

/-- The per-iteration error measurements produced by the loop body, with
iteration index starting at 1. -/
structure AMTrace where
  err : ℕ → ℚ
  errHap : ℕ → ℚ

/-- The value of `err_Com` at the end of iteration `t`:
`abs(err_hist[0, ite-1] - err_hist[0, ite-2])` for `ite > 1` (lines 281-284),
and the initial `np.inf` at the end of iteration 1. -/
def errComAt (tr : AMTrace) (t : ℕ) : WithTop ℚ :=
  if t ≤ 1 then ⊤ else (↑|tr.err t - tr.err (t - 1)| : WithTop ℚ)

/-- The while-loop condition as evaluated after iteration `t` (line 212-217). -/
def amCond (tr : AMTrace) (t : ℕ) : Bool :=
  decide (error_thre < tr.errHap t) && decide (error_thre < tr.err t)
    && decide ((error_thre : WithTop ℚ) < errComAt tr t) && decide (t < max_ite)

/-- Loop runner: `amGo tr fuel t` is the final iteration count when the loop
has already performed iterations `1..t` (the initial `np.inf` values make the
condition true at entry, so iteration 1 always runs). -/
def amGo (tr : AMTrace) : ℕ → ℕ → ℕ
  | 0, t => t
  | fuel + 1, t => if amCond tr t then amGo tr fuel (t + 1) else t

/-- Total number of iterations performed by the alternating-minimization
loop on a given error trace. -/
def amIterations (tr : AMTrace) : ℕ := amGo tr max_ite 1

/-- A trace realizable by the loop body (e.g. a perfect rank-R fit on the
first iteration, where `err = 0` while `Vt` is still far from the `100·ones`
sentinel `Vt_last`): `err` is 0 from iteration 1 on, `err_hap` stays 1. -/
def amBadTrace : AMTrace := ⟨fun _ => 0, fun _ => 1⟩

/-! ## Majority voting with uncovered-position fallback

The V-update vote of lines 228-265, repeated with the original ACGT counts
as fallback for `reconV2` (lines 411-446), and the gap-emitting variant for
`V_deletion` (lines 547-558). `random.random()` draws are modelled by a
stream (`List ℚ`) of values in `[0, 1)` consumed from the front. -/

/-- `single_sta = np.zeros((hap_len, 4))`, the value kept when no reads are
assigned to the haplotype (lines 233-237). -/
def zeroSta (L : ℕ) : List (List ℕ) := (List.range L).map (fun _ => [0, 0, 0, 0])

/-- `single_sta`: ACGT statistics of the assigned reads, or zeros when no
read is assigned (lines 230-237). -/
def singleSta (readsSingle : List (List ℕ)) (L : ℕ) : List (List ℕ) :=
  if readsSingle.length ≠ 0 then ACGT_count readsSingle else zeroSta L

/-- `uncov_pos = np.where(np.sum(single_sta, axis=1) == 0)[0]` (line 239). -/
def uncovPos (sta : List (List ℕ)) (L : ℕ) : List ℕ :=
  (List.range L).filter (fun j => (sta.getD j []).sum = 0)

/-- The fallback choice at one uncovered position (lines 241-265): if the
maximum of the fallback count row is attained more than once, pick
`tem[int(floor(random.random() * len(tem)))]` among the tied indices and
consume one random draw; otherwise take the (unique) argmax. Returns the
0-based nucleotide index and the remaining stream. -/
def tieBreak (counts : List ℕ) (rng : List ℚ) : ℕ × List ℚ :=
  let mx := (listMax counts).getD 0
  let tem := (List.range counts.length).filter (fun c => counts.getD c 0 = mx)
  if tem.length ≠ 1 then
    (tem.getD (Int.toNat ⌊rng.headD 0 * (tem.length : ℚ)⌋) 0, rng.tail)
  else
    (argmaxFirst counts, rng)

/-- The loop over `uncov_pos` (lines 240-265), overwriting the base vote at
each uncovered position with the fallback choice. -/
def applyFallback (fallback : List (List ℕ)) : List ℕ → List ℕ → List ℚ → List ℕ × List ℚ
  | base, [], rng => (base, rng)
  | base, j :: rest, rng =>
    let p := tieBreak (fallback.getD j []) rng
    applyFallback fallback (base.set j (p.1 + 1)) rest p.2

/-- One haplotype row of the majority vote: base vote
`np.argmax(single_sta, axis=1) + 1` (line 238), then the uncovered-position
fallback against the given count matrix (`ACGTcount` in the V-update,
`ori_ACGTcount` in the `reconV2` vote). -/
def voteRow (readsSingle : List (List ℕ)) (L : ℕ) (fallback : List (List ℕ))
    (rng : List ℚ) : List ℕ × List ℚ :=
  let sta := singleSta readsSingle L
  let base := (List.range L).map (fun j => argmaxFirst (sta.getD j []) + 1)
  applyFallback fallback base (uncovPos sta L) rng

/-- One haplotype row of the `V_deletion` vote (lines 547-558): same base
vote, but uncovered positions are emitted as 0 and no randomness is used. -/
def voteRowDel (readsSingle : List (List ℕ)) (L : ℕ) : List ℕ :=
  let sta := singleSta readsSingle L
  let base := (List.range L).map (fun j => argmaxFirst (sta.getD j []) + 1)
  (uncovPos sta L).foldl (fun b j => b.set j 0) base

/-! ## MEC evaluation (spec §4.6, lines 448-464) -/

/-- `true_ind[i] = np.argmax(iden_table[i, :])`: index of the haplotype with
the most identical nucleotides to read `srow` (first maximum; lines 450-458,
also the first-pass assignment of lines 403-410 and the post-processing
assignment of lines 539-545). -/
def assignRead (srow : List ℕ) (H : List (List ℕ)) (L : ℕ) : ℕ :=
  argmaxFirst (H.map (fun hap => identCount srow hap L))

/-- `M = reconV2[true_ind, :]`: the completed read matrix (line 459). -/
def completedMatrix (S H : List (List ℕ)) (L : ℕ) : List (List ℕ) :=
  S.map (fun srow => H.getD (assignRead srow H L) [])

/-- `MEC = len(np.where((SNVmatrix - M) * P_matrix != 0)[0])` with
`P_matrix = 1{SNVmatrix ≠ 0}` (lines 460-464). -/
def MEC_of (S H : List (List ℕ)) (L : ℕ) : ℕ :=
  ((List.range S.length).map (fun i =>
    ((List.range L).filter (fun j =>
      ((entryOf S i j : ℤ) - (entryOf (completedMatrix S H L) i j : ℤ))
        * (if entryOf S i j ≠ 0 then 1 else 0) ≠ 0)).length)).sum

/-! ## Successive clustering (spec §4.5, lines 159-397)

The alternating minimization itself (SVD initialization and the numeric
iteration) is abstracted into an oracle `amO` that yields, for each peeling
iteration, the dominant haplotype row `V[domi_flag, :]` the AM run produced;
everything downstream of it (Hamming table, selection, additional majority
vote, peeling) is translated from the source. -/

/-- The selection loop of lines 326-350: indices (in increasing order) of
the reads selected for the dominant haplotype, using the ACGT statistics of
the current submatrix (line 194). -/
def selectIndices (M_E : List (List ℕ)) (vstar : List ℕ) (misCri : List ℕ)
    (L : ℕ) (eps : ℚ) : List ℕ :=
  (List.range M_E.length).filter (fun i =>
    selectRead (M_E.getD i []) vstar L (misCri.getD i 0) (ACGT_count M_E) eps)

/-- `M_E[index, :]`: the selected rows. -/
def rowsAt (M : List (List ℕ)) (idx : List ℕ) : List (List ℕ) :=
  idx.map (fun i => M.getD i [])

/-- `np.delete(l, index, 0)`: keep the entries whose index is not listed. -/
def deleteIdx {α : Type} (l : List α) (idx : List ℕ) (d : α) : List α :=
  ((List.range l.length).filter (fun i => decide (i ∉ idx))).map (fun i => l.getD i d)

/-- The additional majority vote of lines 361-372:
`V[domi] = (argmax(addi_count)+1)·1{sum≠0} + V_flag·1{sum=0}` per position. -/
def addiVote (selRows : List (List ℕ)) (vflag : List ℕ) (L : ℕ) : List ℕ :=
  let addi := ACGT_count selRows
  (List.range L).map (fun j =>
    if (addi.getD j []).sum ≠ 0 then argmaxFirst (addi.getD j []) + 1
    else vflag.getD j 0)

/-- State of the successive-clustering loop: current read submatrix, the
matching mismatch budgets, the recorded haplotypes (`reconV[0..num_V-2, :]`),
and the current `R`. -/
structure ClusterState where
  M_E : List (List ℕ)
  misCri : List ℕ
  reconV : List (List ℕ)
  R : ℕ

/-- The successive-clustering loop (lines 180-397): while `R ≠ 0` and more
than `R` reads remain, run AM (the oracle, indexed by the number of peels
done so far), select reads for the dominant haplotype, and either abort with
the branch-fail flag `false` on an empty selection (lines 352-359) or record
the re-voted haplotype, delete the selected reads and their budgets, and
continue with `R - 1`. The `Bool` of the result is the branch's `alt_tag`. -/
def clusterLoop (L : ℕ) (eps : ℚ) (amO : ℕ → List ℕ) :
    ℕ → ClusterState → ClusterState × Bool
  | 0, st => (st, true)
  | fuel + 1, st =>
    if st.R ≠ 0 ∧ st.M_E.length > st.R then
      let vstar := amO st.reconV.length
      let sel := selectIndices st.M_E vstar st.misCri L eps
      if sel = [] then (st, false)
      else
        clusterLoop L eps amO fuel
          ⟨deleteIdx st.M_E sel [], deleteIdx st.misCri sel 0,
            st.reconV ++ [addiVote (rowsAt st.M_E sel) vstar L], st.R - 1⟩
    else (st, true)

/-- The MEC slot of one sign branch: `MEC[svd_flag-1]` is assigned only
under the branch-success guard of lines 399-401 & 462, and otherwise keeps
its initialization `np.inf` (lines 154-156). -/
def mecEntry (tag : Bool) (score : ℕ) : WithTop ℕ :=
  if tag then (score : WithTop ℕ) else ⊤

/-! ## Per-K evaluation (lines 159-473) and the rank-estimation loop
(lines 136-529)

The `reconV2` recomputation threads the shared `random.random()` stream;
`evalBranch` mirrors one `svd_flag` pass, `evalK` one `K_ite` evaluation
(both sign branches, best MEC). The `np.argmax` call of line 410 on a
`(N, 0)` table — reached whenever the clustering loop records no haplotype,
e.g. when the read count is at most `R` so the loop body never runs — raises
`ValueError`, modelled as `Except.error`. -/

/-- Rows of the second majority vote `reconV2` (lines 411-446), one row per
recorded haplotype, threading the random stream left to right. -/
def reconV2Go (S : List (List ℕ)) (assign : List ℕ) (L : ℕ)
    (oriCnt : List (List ℕ)) : List ℕ → List ℚ → List (List ℕ) × List ℚ
  | [], rng => ([], rng)
  | i :: rest, rng =>
    let readsSingle := ((List.range S.length).filter
      (fun r => assign.getD r 0 = i)).map (fun r => S.getD r [])
    let p := voteRow readsSingle L oriCnt rng
    let q := reconV2Go S assign L oriCnt rest p.2
    (p.1 :: q.1, q.2)

/-- `reconV2` (lines 403-446): reassign every original read to the recorded
haplotype with the most identical nucleotides, then re-vote each haplotype
with the original ACGT counts as fallback. -/
def reconV2Of (S recon : List (List ℕ)) (L : ℕ) (oriCnt : List (List ℕ))
    (rng : List ℚ) : List (List ℕ) × List ℚ :=
  let assign := S.map (fun srow => assignRead srow recon L)
  reconV2Go S assign L oriCnt (List.range recon.length) rng

/-- One sign branch of the evaluation at a given `R = K_ite` (lines
159-473): run successive clustering from the full matrix; on branch failure
the MEC slot stays `⊤` and the run continues; on success with zero recorded
haplotypes the `np.argmax` of line 410 raises; otherwise the branch MEC is
the MEC of `reconV2`. The per-read mismatch budgets `misCri0` are the
precomputed `ori_mis_cri` of lines 122-130, an input to this model. -/
def evalBranch (S : List (List ℕ)) (L : ℕ) (eps : ℚ) (misCri0 : List ℕ)
    (oriCnt : List (List ℕ)) (amO : ℕ → List ℕ) (rng : List ℚ) (R : ℕ) :
    Except Unit (WithTop ℕ × List ℚ) :=
  let res := clusterLoop L eps amO (R + 1) ⟨S, misCri0, [], R⟩
  if res.2 then
    if res.1.reconV.length = 0 then .error ()
    else
      let p := reconV2Of S res.1.reconV L oriCnt rng
      .ok ((MEC_of S p.1 L : WithTop ℕ), p.2)
  else .ok (⊤, rng)

/-- Outcome of evaluating one `K_ite`: both sign branches failed
(`alt_tag1 = alt_tag2 = 0`), or the smaller of the two branch MECs
(line 486, `min(MEC)`). -/
inductive KOutcome where
  | fail
  | ok (mec : ℚ)

/-- One `K_ite` evaluation (lines 149-473): plus branch then minus branch
(threading the random stream), then the branch-failure test of line 476. -/
def evalK (S : List (List ℕ)) (L : ℕ) (eps : ℚ) (misCri0 : List ℕ)
    (oriCnt : List (List ℕ)) (amO1 amO2 : ℕ → List ℕ) (rng : List ℚ) (R : ℕ) :
    Except Unit (KOutcome × List ℚ) :=
  match evalBranch S L eps misCri0 oriCnt amO1 rng R with
  | .error _ => .error ()
  | .ok (m1, rng1) =>
    match evalBranch S L eps misCri0 oriCnt amO2 rng1 R with
    | .error _ => .error ()
    | .ok (m2, rng2) =>
      if m1 = ⊤ ∧ m2 = ⊤ then .ok (.fail, rng2)
      else .ok (.ok (((min m1 m2).untop' 0 : ℕ) : ℚ), rng2)

/-- The per-K evaluation packaged as a function of `K_ite` alone, as the
rank-estimation loop model consumes it (the random stream is restarted per
evaluation; it is unused on every path exercised below). -/
def evalFOf (S : List (List ℕ)) (L : ℕ) (eps : ℚ) (misCri0 : List ℕ)
    (oriCnt : List (List ℕ)) (amO1 amO2 : ℕ → List ℕ) (rng : List ℚ) :
    ℤ → Except Unit KOutcome :=
  fun k =>
    match evalK S L eps misCri0 oriCnt amO1 amO2 rng k.toNat with
    | .error _ => .error ()
    | .ok p => .ok p.1

/-- `MEC_thre` default `0.0312` (line 53). -/
def MEC_thre : ℚ := 312 / 10000

/-- State of the rank-estimation loop: `K_table = [low, high]`, the current
`K`, the filled prefix of the 50-column `MEC_table` as `(K, MEC)` pairs
(rows 1, 3, 4 of the table never influence control flow or the final
selection: `recall` is always 0, `hap_num` is never read back, and the MEC
rate of row 4 is only printed), the current values of the
`alt_tag1 = alt_tag2 = 0` test, and the last `ori_K`. -/
structure RankState where
  low : ℤ
  high : ℤ
  K : ℤ
  table : List (ℤ × ℚ)
  tagsFailed : Bool
  oriK : ℤ

/-- The cache lookup `np.where(MEC_table[0, :] == K_ite)[0]` (line 149):
the first filled column with the given K, or — since the unfilled columns of
the preallocated `np.zeros((5, 50))` table also participate — a phantom
all-zero column when `K_ite = 0` and the table is not full. -/
def findCol (table : List (ℤ × ℚ)) (k : ℤ) : Option (ℤ × ℚ) :=
  match table.find? (fun c => c.1 = k) with
  | some c => some c
  | none => if k = 0 ∧ table.length < 50 then some (0, 0) else none

/-- `n` is a power of two. -/
def isPow2 (n : ℕ) : Bool :=
  decide (n ≠ 0) && decide (n = 2 ^ Nat.log2 n)

/-- `math.log2(a / b) % 1 == 0` (line 520) in exact arithmetic, for
positive `a`, `b`: the ratio is an integral power of two. -/
def ratioLog2Integral (a b : ℤ) : Bool :=
  if a.toNat % b.toNat = 0 then isPow2 (a.toNat / b.toNat)
  else if b.toNat % a.toNat = 0 then isPow2 (b.toNat / a.toNat)
  else false

/-- Processing of one `K_ite` (lines 149-502 without the post-update): on a
cache hit copy the column (line 499), else evaluate; a both-branch failure
increments `K_count` and breaks (lines 476-478, second component `true`);
writes beyond the 50 allocated columns raise `IndexError`. -/
def processKIte (evalF : ℤ → Except Unit KOutcome) (st : RankState) (kite : ℤ) :
    Except Unit (RankState × Bool) :=
  match findCol st.table kite with
  | some c =>
    if st.table.length < 50 then
      .ok ({ st with table := st.table ++ [c] }, false)
    else .error ()
  | none =>
    match evalF kite with
    | .error _ => .error ()
    | .ok .fail => .ok ({ st with tagsFailed := true, oriK := kite }, true)
    | .ok (.ok m) =>
      if st.table.length < 50 then
        .ok ({ st with
                table := st.table ++ [(kite, m)]
                tagsFailed := false
                oriK := kite }, false)
      else .error ()

/-- The rank-estimation update of lines 505-526. In the failed branch,
`MEC_table[0, K_count-2] = ori_K` lands on a fresh column when the break of
line 478 just happened (append) and on the last copied column otherwise
(overwrite of its K entry); then `low ← ori_K` and `K` doubles (no upper
bound yet) or bisects. In the normal branch the MEC rate between the two
last-filled columns decides: improving (> `MEC_thre`) sets `low ← K` and
doubles while `log2(low / K_step)` is integral (probe phase, fatal on a
non-positive ratio as `math.log2` would raise) or bisects; otherwise
`high ← K` and bisects. `np.floor(sum(K_table)/2)` is written `/ 2` below:
`ℤ` division in Lean is Euclidean, which agrees with floor division for the
positive divisor 2. -/
def rankPost (Kstep : ℤ) (st : RankState) (brokeNow : Bool) : Except Unit RankState :=
  if st.tagsFailed then
    if brokeNow then
      if st.table.length < 50 then
        let st1 : RankState := { st with table := st.table ++ [(st.oriK, 0)], low := st.oriK }
        if st1.high = 0 then .ok { st1 with K := 2 * st1.K }
        else .ok { st1 with K := (st1.low + st1.high) / 2 }
      else .error ()
    else
      let last := st.table.getD (st.table.length - 1) (0, 0)
      let st1 : RankState := { st with
        table := st.table.dropLast ++ [(st.oriK, last.2)], low := st.oriK }
      if st1.high = 0 then .ok { st1 with K := 2 * st1.K }
      else .ok { st1 with K := (st1.low + st1.high) / 2 }
  else
    let c1 := st.table.getD (st.table.length - 2) (0, 0)
    let c2 := st.table.getD (st.table.length - 1) (0, 0)
    if (c1.2 - c2.2) / c1.2 > MEC_thre then
      if c1.1 ≤ 0 ∨ Kstep ≤ 0 then .error ()
      else if ratioLog2Integral c1.1 Kstep then
        .ok { st with low := c1.1, K := 2 * st.K }
      else
        .ok { st with low := c1.1, K := (c1.1 + st.high) / 2 }
    else
      .ok { st with high := c1.1, K := (st.low + c1.1) / 2 }

/-- One iteration of the rank-estimation while loop: the two `K_ite` values
`K` and `K + 1` (the break of line 478 skips the second), then the update. -/
def rankStep (evalF : ℤ → Except Unit KOutcome) (Kstep : ℤ) (st : RankState) :
    Except Unit RankState :=
  match processKIte evalF st st.K with
  | .error _ => .error ()
  | .ok (st1, true) => rankPost Kstep st1 true
  | .ok (st1, false) =>
    match processKIte evalF st1 (st.K + 1) with
    | .error _ => .error ()
    | .ok (st2, broke2) => rankPost Kstep st2 broke2

/-- Result of running the rank-estimation loop with bounded fuel. -/
inductive RankRes where
  | done (st : RankState)
  | outOfFuel (st : RankState)
  | crashed

/-- `while K_table[1] - K_table[0] != 1` (line 144). -/
def rankLoop (evalF : ℤ → Except Unit KOutcome) (Kstep : ℤ) :
    ℕ → RankState → RankRes
  | 0, st => .outOfFuel st
  | fuel + 1, st =>
    if st.high - st.low ≠ 1 then
      match rankStep evalF Kstep st with
      | .error _ => .crashed
      | .ok st' => rankLoop evalF Kstep fuel st'
    else .done st

/-- Initial state: `K_table = [1, 0]` (line 136), initial `K`. -/
def rankInit (K0 : ℤ) : RankState := ⟨1, 0, K0, [], false, 0⟩

/-- The rank estimator from its initial state; `K_step = int(K)` (line 137). -/
def rankRun (evalF : ℤ → Except Unit KOutcome) (K0 : ℤ) (fuel : ℕ) : RankRes :=
  rankLoop evalF K0 fuel (rankInit K0)

/-- `RankRes.done` test. -/
def RankRes.isDone : RankRes → Bool
  | .done _ => true
  | _ => false

/-- The final lookup `np.where(MEC_table[0, :] == K_table[1])[0][0]`
(line 529): first matching filled column, then the phantom zero columns,
else `IndexError` (`none`). -/
def chosenIdx (st : RankState) : Option ℕ :=
  let idx := st.table.findIdx (fun c => c.1 = st.high)
  if idx < st.table.length then some idx
  else if st.high = 0 ∧ st.table.length < 50 then some st.table.length
  else none

/-- A one-read SNV matrix: a valid nonempty input on which the estimator
with the default initial `K = 5` crashes (the clustering guard
`len(M_E) > R` is false at entry, no haplotype is recorded, and line 410
takes an argmax over an empty axis). -/
def oneReadS : List (List ℕ) := [[1, 1]]

/-! ## Post-processing (spec §4.8, lines 536-632)

Inputs: the original SNV matrix `S` and the chosen haplotype matrix `rv2`
(`reconVK…`); then the final reassignment, the gap-emitting `V_deletion`
vote, frequency estimation, rank-based truncation, duplicate collapse, FASTA
rendering and the final frequency table. -/

/-- The reassignment of lines 539-545: haplotype index per original read. -/
def postAssignOf (S rv2 : List (List ℕ)) (L : ℕ) : List ℕ :=
  S.map (fun srow => assignRead srow rv2 L)

/-- `SNVmatrix[index == i, :]` (line 549). -/
def readsAssignedTo (S : List (List ℕ)) (assign : List ℕ) (i : ℕ) : List (List ℕ) :=
  ((List.range S.length).filter (fun r => assign.getD r 0 = i)).map
    (fun r => S.getD r [])

/-- `V_deletion` (lines 547-559): majority vote with uncovered positions 0. -/
def V_deletionOf (S rv2 : List (List ℕ)) (L : ℕ) : List (List ℕ) :=
  (List.range rv2.length).map
    (fun i => voteRowDel (readsAssignedTo S (postAssignOf S rv2 L) i) L)

/-- `fre_count` (lines 560-563): reads assigned per haplotype. -/
def fre_countOf (S rv2 : List (List ℕ)) (L : ℕ) : List ℕ :=
  (List.range rv2.length).map
    (fun i => ((postAssignOf S rv2 L).filter (fun a => a = i)).length)

/-- `viralseq_fre = fre_count / sum(fre_count)` (line 566). -/
def viralseq_freOf (S rv2 : List (List ℕ)) (L : ℕ) : List ℚ :=
  (fre_countOf S rv2 L).map
    (fun c : ℕ => (c : ℚ) / ((fre_countOf S rv2 L).sum : ℚ))

/-- Stable insertion of index `i` into an ascending index list: on ties the
earlier-processed index stays first. Models `np.argsort` deterministically
(the numpy default introsort is unstable, but every concrete instance used
below has pairwise-distinct keys, where all correct sorts agree). -/
def insertAsc (v : List ℚ) (i : ℕ) : List ℕ → List ℕ
  | [] => [i]
  | j :: rest =>
    if v.getD i 0 < v.getD j 0 then i :: j :: rest else j :: insertAsc v i rest

/-- `np.argsort` (ascending). -/
def argsortAsc (v : List ℚ) : List ℕ :=
  (List.range v.length).foldl (fun acc i => insertAsc v i acc) []

/-- `np.argsort(v)[::-1]` (lines 567-568 and 624). -/
def argsortDesc (v : List ℚ) : List ℕ := (argsortAsc v).reverse

/-- `np.linalg.matrix_rank` (line 569) on the integer matrix `V_deletion`,
as the exact rank over the rationals: fraction-free Gaussian elimination
(scaling a row by the nonzero pivot head and subtracting the matching
multiple of the pivot row preserves the row-space dimension; recursion is on
the column count). -/
def rankZGo : ℕ → List (List ℤ) → ℕ
  | 0, _ => 0
  | n + 1, rows =>
    match rows.find? (fun r => decide (r.headD 0 ≠ 0)) with
    | none => rankZGo n (rows.map List.tail)
    | some p =>
      1 + rankZGo n ((rows.erase p).map (fun r =>
          List.zipWith (fun x y => p.headD 0 * x - r.headD 0 * y) r.tail p.tail))

/-- Rank of an integer matrix. -/
def rankZ (M : List (List ℤ)) : ℕ := rankZGo (M.headD []).length M

/-- `m = np.linalg.matrix_rank(V_deletion)` (line 569): the reported
population size. -/
def popSizeOf (S rv2 : List (List ℕ)) (L : ℕ) : ℕ :=
  rankZ ((V_deletionOf S rv2 L).map (fun row => row.map (fun x => (x : ℤ))))

/-- `viralfre_index = np.argsort(viralseq_fre)[::-1]` (lines 567-568). -/
def viralfre_indexOf (S rv2 : List (List ℕ)) (L : ℕ) : List ℕ :=
  argsortDesc (viralseq_freOf S rv2 L)

/-- `V_deletion_new = V_deletion[viralfre_index[:m]]` (line 572). -/
def V_deletion_newOf (S rv2 : List (List ℕ)) (L : ℕ) : List (List ℕ) :=
  ((viralfre_indexOf S rv2 L).take (popSizeOf S rv2 L)).map
    (fun i => (V_deletionOf S rv2 L).getD i [])

/-- `viralseq_fre_new` (lines 573-579): every original haplotype row equal
to the retained row `i` contributes its frequency to entry `i`. -/
def viralseq_fre_newOf (S rv2 : List (List ℕ)) (L : ℕ) : List ℚ :=
  (List.range (popSizeOf S rv2 L)).map (fun i =>
    ((List.range (V_deletionOf S rv2 L).length).map (fun j =>
      if (V_deletion_newOf S rv2 L).getD i [] = (V_deletionOf S rv2 L).getD j []
      then (viralseq_freOf S rv2 L).getD j 0 else 0)).sum)

/-- `Recon_Quasi[i, :] = Homoseq; Recon_Quasi[i, SNVpos] = V_deletion_new[i, :]`
(lines 588-593). -/
def reconQuasiRow (Homoseq SNVpos vrow : List ℕ) : List ℕ :=
  (List.range SNVpos.length).foldl
    (fun acc t => acc.set (SNVpos.getD t 0) (vrow.getD t 0)) Homoseq

/-- The rendering loop of lines 597-611 over one row, keeping the {0..4}
symbols (the characters `A C G T *` are in bijection with 1,2,3,4,0): stop
at the first position `j` with `j + 1 > Glen` carrying a gap, else emit. -/
def quasiGo (Glen : ℕ) : ℕ → List ℕ → List ℕ
  | _, [] => []
  | j, x :: rest => if j + 1 > Glen ∧ x = 0 then [] else x :: quasiGo Glen (j + 1) rest

/-- One rendered sequence. -/
def quasiRow (row : List ℕ) (Glen : ℕ) : List ℕ := quasiGo Glen 0 row

/-- `Quasi` (lines 596-612). -/
def QuasiOf (S rv2 : List (List ℕ)) (L : ℕ) (Homoseq SNVpos : List ℕ) :
    List (List ℕ) :=
  (V_deletion_newOf S rv2 L).map
    (fun vrow => quasiRow (reconQuasiRow Homoseq SNVpos vrow) Homoseq.length)

/-- One `Hashtable` update (lines 616-620): add to the first entry with the
given key, or append the new key (Python dicts keep insertion order and
unique keys). -/
def hashAdd : List (List ℕ × ℚ) → List ℕ → ℚ → List (List ℕ × ℚ)
  | [], k, v => [(k, v)]
  | p :: rest, k, v =>
    if p.1 = k then (p.1, p.2 + v) :: rest else p :: hashAdd rest k v

/-- The duplicate-collapsing `Hashtable` of lines 614-620. -/
def hashTableOf (keys : List (List ℕ)) (vals : List ℚ) : List (List ℕ × ℚ) :=
  (List.range keys.length).foldl
    (fun h i => hashAdd h (keys.getD i []) (vals.getD i 0)) []

/-- The frequencies written to the FASTA (lines 622-631): the `Hashtable`
values, reordered by descending frequency. -/
def fastaFreqsOf (S rv2 : List (List ℕ)) (L : ℕ) (Homoseq SNVpos : List ℕ) :
    List ℚ :=
  let vals := (hashTableOf (QuasiOf S rv2 L Homoseq SNVpos)
    (viralseq_fre_newOf S rv2 L)).map Prod.snd
  (argsortDesc vals).map (fun i => vals.getD i 0)

/-- A chosen-haplotype matrix with a duplicated row whose `V_deletion` is
rank-deficient: with the matching reads, the rank-based truncation keeps
only one of three haplotype rows and the collapsed FASTA frequencies total
2/3. -/
def ctrS : List (List ℕ) := [[1, 1], [1, 1], [2, 2]]

/-- The chosen `reconV2` for the counterexample run. -/
def ctrRV : List (List ℕ) := [[1, 1], [1, 1], [2, 2]]

/-- Original reads for the full-rank post-processing run: the `V_deletion`
matrix `[[1,2],[2,1]]` has rank 2, so nothing is truncated. -/
def witS : List (List ℕ) := [[1, 2], [1, 2], [2, 1]]

/-- The chosen `reconV2` for the full-rank run. -/
def witRV : List (List ℕ) := [[1, 2], [2, 1]]

/-- A constant per-K evaluation: both sign branches succeed with MEC 10. -/
def constEvalF : ℤ → Except Unit KOutcome := fun _ => .ok (.ok 10)

/-- The exit state reached by `constEvalF` from `K = 2`. -/
def rankDoneSt : RankState := ⟨1, 2, 1, [(2, 10), (3, 10)], false, 3⟩

/-- Invariant of the rank-estimation loop used for its exit properties:
`low` and `K` stay at least 1, `high` is nonnegative and (once set) present
among the filled K entries, every filled K entry is at least 1, `ori_K` is a
genuine `K_ite` whenever a failure is recorded, and during the probe-up
phase (`high = 0`) the ratio `K / K_step` is an integral power of two. -/
def RankInv (Kstep : ℤ) (st : RankState) : Prop :=
  1 ≤ st.low ∧ 1 ≤ st.K ∧ 0 ≤ st.high
  ∧ (st.tagsFailed = true → 1 ≤ st.oriK)
  ∧ (∀ c ∈ st.table, 1 ≤ c.1)
  ∧ (st.high = 0 ∨ ∃ c ∈ st.table, c.1 = st.high)
  ∧ (st.high = 0 → ratioLog2Integral st.K Kstep = true)

end TenSQR

/-! # Theorems -/

namespace TenSQR

/-! ## List utility lemmas -/

theorem count_eq_card (l : List ℕ) (v : ℕ) :
    l.count v = ((Finset.range l.length).filter (fun i => l.getD i 0 = v)).card := by
  induction l with
  | nil => simp
  | cons x xs ih =>
    rw [Finset.card_filter] at *
    rw [List.length_cons, Finset.sum_range_succ']
    simp only [List.getD_cons_succ, List.getD_cons_zero]
    rw [List.count_cons, ← ih]
    by_cases h : x = v <;> simp [h]

theorem getD_map_gen {α β : Type} (l : List α) (g : α → β) (i : ℕ) (d : β) (da : α)
    (h : i < l.length) :
    (l.map g).getD i d = g (l.getD i da) := by
  have h2 : i < (l.map g).length := by simpa using h
  rw [List.getD_eq_getElem _ _ h2, List.getElem_map, ← List.getD_eq_getElem l da h]

theorem getD_range_map {α : Type} (f : ℕ → α) (n j : ℕ) (d : α) (h : j < n) :
    ((List.range n).map f).getD j d = f j := by
  have h2 : j < ((List.range n).map f).length := by simpa using h
  rw [List.getD_eq_getElem _ _ h2, List.getElem_map, List.getElem_range]

theorem mem_of_getD {α : Type} (l : List α) (i : ℕ) (d : α) (h : i < l.length) :
    l.getD i d ∈ l := by
  rw [List.getD_eq_getElem _ _ h]; exact List.getElem_mem h

theorem getD_map_nat (row : List ℕ) (g : ℕ → ℕ) (j d : ℕ) (h : j < row.length) :
    (row.map g).getD j d = g (row.getD j 0) :=
  getD_map_gen row g j d 0 h

theorem colOf_count (M : List (List ℕ)) (j v : ℕ) :
    (colOf M j).count v
      = ((Finset.range M.length).filter (fun i => entryOf M i j = v)).card := by
  rw [count_eq_card]
  have hl : (colOf M j).length = M.length := by simp [colOf]
  rw [hl]
  congr 1
  apply Finset.filter_congr
  intro i hi
  have hi' : i < M.length := Finset.mem_range.mp hi
  simp only [colOf]
  rw [getD_map_gen M _ i 0 [] hi']
  rfl

/-! ## C8: correctness of `ACGT_count` on 2-D inputs -/

/-- C8: for a 2-D matrix `M` with entries in {0..4}, `ACGT_count M` has shape
`(L, 4)` (with `L` = numpy's `M.shape[1]`), its `(j, c)` entry counts the
reads with `M[i, j] = c+1`, and its row-`j` sum is the number of non-gap
entries of column `j`; gap cells contribute to no column. -/
theorem ACGT_count_spec (M : List (List ℕ)) (L : ℕ)
    (hL : ∀ row ∈ M, row.length = L)
    (hA : ∀ row ∈ M, ∀ x ∈ row, x ≤ 4) :
    ((ACGT_count M).length = nSnvs M ∧ (M ≠ [] → nSnvs M = L)
      ∧ ∀ r ∈ ACGT_count M, r.length = 4)
    ∧ (∀ j < nSnvs M, ∀ c < 4,
        ((ACGT_count M).getD j []).getD c 0
          = ((Finset.range M.length).filter (fun i => entryOf M i j = c + 1)).card)
    ∧ (∀ j < nSnvs M,
        ((ACGT_count M).getD j []).sum
          = ((Finset.range M.length).filter (fun i => entryOf M i j ≠ 0)).card) := by
  refine ⟨⟨by simp [ACGT_count], ?_, ?_⟩, ?_, ?_⟩
  · intro hne
    match M, hne with
    | row :: rest, _ => exact (hL row (by simp)).symm ▸ rfl
  · intro r hr
    simp only [ACGT_count, List.mem_map] at hr
    obtain ⟨j, -, rfl⟩ := hr
    simp
  · intro j hj c hc
    rw [ACGT_count, getD_range_map _ _ _ _ hj, getD_range_map _ _ _ _ hc, colOf_count]
  · intro j hj
    rw [ACGT_count, getD_range_map _ _ _ _ hj]
    have hsum : ((List.range 4).map (fun c => (colOf M j).count (c + 1))).sum
        = ∑ c in Finset.range 4, (colOf M j).count (c + 1) := rfl
    rw [hsum]
    have hcv : ∀ c, (colOf M j).count (c + 1)
        = ((Finset.range M.length).filter (fun i => entryOf M i j = c + 1)).card :=
      fun c => colOf_count M j (c + 1)
    simp only [hcv, Finset.card_filter]
    rw [Finset.sum_comm]
    apply Finset.sum_congr rfl
    intro i hi
    have hb : entryOf M i j ≤ 4 := by
      have hi' : i < M.length := Finset.mem_range.mp hi
      unfold entryOf
      rcases Nat.lt_or_ge j (M.getD i []).length with h | h
      · exact hA _ (mem_of_getD M i [] hi') _ (mem_of_getD _ j 0 h)
      · rw [List.getD_eq_default _ _ h]; omega
    set x := entryOf M i j with hx
    rw [Finset.sum_range_succ, Finset.sum_range_succ, Finset.sum_range_succ,
      Finset.sum_range_succ, Finset.sum_range_zero]
    interval_cases x <;> simp

/-- Witness for C8 at a concrete 2×3 matrix. -/
theorem ACGT_count_spec_witness :
    ((∀ row ∈ [[1, 0, 2], [1, 4, 2]], row.length = 3)
      ∧ (∀ row ∈ [[1, 0, 2], [1, 4, 2]], ∀ x ∈ row, x ≤ 4))
    ∧ (∀ j < nSnvs [[1, 0, 2], [1, 4, 2]],
        ((ACGT_count [[1, 0, 2], [1, 4, 2]]).getD j []).sum
          = ((Finset.range 2).filter
              (fun i => entryOf [[1, 0, 2], [1, 4, 2]] i j ≠ 0)).card) :=
  ⟨⟨by decide, by decide⟩,
    (ACGT_count_spec [[1, 0, 2], [1, 4, 2]] 3 (by decide) (by decide)).2.2⟩

/-! ## C9: shape guard of `ACGT_count` -/

/-- C9: `ACGT_count` raises the shape error exactly on non-2-D inputs: the
checked call succeeds iff `ndim = 2`. -/
theorem ACGT_count_checked_ok_iff (a : NDArray) :
    (ACGT_count_checked a).isOk = true ↔ a.ndim = 2 := by
  cases a <;> simp [ACGT_count_checked, NDArray.ndim, Except.isOk, Except.toBool]

/-! ## C4: tensor encode/decode round trip -/

theorem getD_blocks (b1 b2 b3 b4 : List ℕ) (L j c : ℕ)
    (h1 : b1.length = L) (h2 : b2.length = L) (h3 : b3.length = L) (h4 : b4.length = L)
    (hj : j < L) (hc : c < 4) :
    (b1 ++ b2 ++ b3 ++ b4).getD (c * L + j) 0 =
      [b1.getD j 0, b2.getD j 0, b3.getD j 0, b4.getD j 0].getD c 0 := by
  have hl12 : (b1 ++ b2).length = L + L := by simp [h1, h2]
  have hl123 : (b1 ++ b2 ++ b3).length = L + L + L := by simp [h1, h2, h3]; omega
  interval_cases c
  · rw [List.getD_append _ _ _ _ (by omega), List.getD_append _ _ _ _ (by omega),
      List.getD_append _ _ _ _ (by omega), show 0 * L + j = j by omega]
    rfl
  · rw [List.getD_append _ _ _ _ (by omega), List.getD_append _ _ _ _ (by omega),
      List.getD_append_right _ _ _ _ (by omega), h1, show 1 * L + j - L = j by omega]
    rfl
  · rw [List.getD_append _ _ _ _ (by omega), List.getD_append_right _ _ _ _ (by omega),
      hl12, show 2 * L + j - (L + L) = j by omega]
    rfl
  · rw [List.getD_append_right _ _ _ _ (by omega), hl123,
      show 3 * L + j - (L + L + L) = j by omega]
    rfl

theorem oneHotRow_getD (row : List ℕ) (L j c : ℕ) (hrow : row.length = L)
    (hj : j < L) (hc : c < 4) :
    (oneHotRow row).getD (c * L + j) 0 = if row.getD j 0 = c + 1 then 1 else 0 := by
  unfold oneHotRow
  rw [getD_blocks _ _ _ _ L j c (by simpa using hrow) (by simpa using hrow)
    (by simpa using hrow) (by simpa using hrow) hj hc]
  interval_cases c <;>
    simp only [List.getD_cons_zero, List.getD_cons_succ] <;>
    rw [getD_map_nat _ _ _ _ (by omega)]

theorem decode_entry (row : List ℕ) (L j : ℕ) (hrow : row.length = L) (hj : j < L)
    (hv1 : 1 ≤ row.getD j 0) (hv4 : row.getD j 0 ≤ 4) :
    argmaxFirst [(oneHotRow row).getD j 0, (oneHotRow row).getD (L + j) 0,
      (oneHotRow row).getD (2 * L + j) 0, (oneHotRow row).getD (3 * L + j) 0] + 1
      = row.getD j 0 := by
  have e0 := oneHotRow_getD row L j 0 hrow hj (by omega)
  have e1 := oneHotRow_getD row L j 1 hrow hj (by omega)
  have e2 := oneHotRow_getD row L j 2 hrow hj (by omega)
  have e3 := oneHotRow_getD row L j 3 hrow hj (by omega)
  rw [show (0 : ℕ) * L + j = j by omega] at e0
  rw [show (1 : ℕ) * L + j = L + j by omega] at e1
  rw [show (2 : ℕ) * L + j = 2 * L + j by omega] at e2
  rw [show (3 : ℕ) * L + j = 3 * L + j by omega] at e3
  rw [e0, e1, e2, e3]
  set v := row.getD j 0 with hv
  interval_cases v <;> decide

/-- C4: the tensor encode/decode pair is a round trip. On a matrix with
entries in {1..4} the decode of the encode is the identity; on a read matrix
with entries in {0..4} it reproduces every non-gap entry. -/
theorem tensor_roundtrip (S : List (List ℕ)) (L : ℕ)
    (hL : ∀ row ∈ S, row.length = L)
    (hA : ∀ row ∈ S, ∀ x ∈ row, x ≤ 4) :
    ((∀ row ∈ S, ∀ x ∈ row, 1 ≤ x) → decodeTensor (tensorOf S) L = S)
    ∧ (∀ i < S.length, ∀ j < L, entryOf S i j ≠ 0 →
        entryOf (decodeTensor (tensorOf S) L) i j = entryOf S i j) := by
  have key : ∀ i < S.length, ∀ j < L, entryOf S i j ≠ 0 →
      entryOf (decodeTensor (tensorOf S) L) i j = entryOf S i j := by
    intro i hi j hj hne
    have hrowmem : S.getD i [] ∈ S := mem_of_getD S i [] hi
    have hrowlen : (S.getD i []).length = L := hL _ hrowmem
    unfold entryOf
    unfold decodeTensor tensorOf
    rw [List.map_map]
    rw [getD_map_gen S _ i [] [] hi]
    simp only [Function.comp]
    rw [getD_range_map _ _ _ _ hj]
    have hv4 : (S.getD i []).getD j 0 ≤ 4 := by
      rcases Nat.lt_or_ge j (S.getD i []).length with h | h
      · exact hA _ hrowmem _ (mem_of_getD _ j 0 h)
      · rw [List.getD_eq_default _ _ h]; omega
    have hv1 : 1 ≤ (S.getD i []).getD j 0 := by
      unfold entryOf at hne; omega
    exact decode_entry (S.getD i []) L j hrowlen hj hv1 hv4
  refine ⟨?_, key⟩
  intro hpos
  apply List.ext_getElem
  · simp [decodeTensor, tensorOf]
  · intro i h1 h2
    have hi : i < S.length := h2
    have hrowmem : S.getD i [] ∈ S := mem_of_getD S i [] hi
    have hrowlen : (S.getD i []).length = L := hL _ hrowmem
    have e1 : (decodeTensor (tensorOf S) L)[i] = (decodeTensor (tensorOf S) L).getD i [] :=
      (List.getD_eq_getElem _ _ h1).symm
    have e2 : S[i] = S.getD i [] := (List.getD_eq_getElem _ _ hi).symm
    apply List.ext_getElem
    · rw [e1, e2]
      unfold decodeTensor tensorOf
      rw [List.map_map, getD_map_gen S _ i [] [] hi]
      simp only [Function.comp]
      simp only [List.length_map, List.length_range, hrowlen]
    · intro j hj1 hj2
      have hj : j < L := by
        rw [e2, hrowlen] at hj2
        exact hj2
      have he : entryOf (decodeTensor (tensorOf S) L) i j = entryOf S i j := by
        apply key i hi j hj
        have hmem : entryOf S i j ∈ S.getD i [] := by
          unfold entryOf
          apply mem_of_getD
          rw [hrowlen]; exact hj
        have h1le := hpos _ hrowmem _ hmem
        omega
      unfold entryOf at he
      rw [List.getD_eq_getElem _ _ h1] at he
      rw [List.getD_eq_getElem _ _ hj1] at he
      rw [List.getD_eq_getElem _ _ h2] at he
      rw [List.getD_eq_getElem _ _ hj2] at he
      exact he

/-! ## C2: the read-selection rule of successive clustering -/

theorem foldl_mul_eq (f : ℕ → ℚ) (l : List ℕ) (init : ℚ) :
    l.foldl (fun pr j => pr * f j) init = init * (l.map f).prod := by
  induction l generalizing init with
  | nil => simp
  | cons x xs ih => simp [ih, mul_assoc]

theorem prVariant_eq_prod (row : List ℕ) (L : ℕ) (acgt : List (List ℕ)) :
    prVariant row L acgt
      = ∏ j in (Finset.range L).filter (fun j => row.getD j 0 ≠ 0),
          (((acgt.getD j []).getD (row.getD j 0 - 1) 0 : ℚ)
            / ((acgt.getD j []).sum : ℚ)) := by
  rw [prVariant, foldl_mul_eq, one_mul]
  rfl

/-- C2: a read is selected iff its Hamming distance to the dominant
haplotype is 0, or it is within its mismatch budget and the binomial
sequencing-error probability at `hd` exceeds the variant probability (the
product over its non-gap positions of the submatrix nucleotide frequencies);
a read beyond its mismatch budget is never selected. -/
theorem selectRead_iff (row vstar : List ℕ) (L misCri : ℕ) (acgt : List (List ℕ))
    (eps : ℚ) :
    (selectRead row vstar L misCri acgt eps = true ↔
      (hdOf row vstar L = 0
        ∨ (hdOf row vstar L ≤ (misCri : ℤ)
            ∧ binomPmf (hdOf row vstar L).toNat (nongapCount row L) eps
              > ∏ j in (Finset.range L).filter (fun j => row.getD j 0 ≠ 0),
                  (((acgt.getD j []).getD (row.getD j 0 - 1) 0 : ℚ)
                    / ((acgt.getD j []).sum : ℚ)))))
    ∧ ((misCri : ℤ) < hdOf row vstar L →
        selectRead row vstar L misCri acgt eps = false) := by
  constructor
  · unfold selectRead
    by_cases h0 : hdOf row vstar L = 0
    · simp [h0]
    · by_cases hm : hdOf row vstar L ≤ (misCri : ℤ)
      · simp [h0, hm, prVariant_eq_prod, prSeq]
      · simp [h0, hm]
  · intro hgt
    unfold selectRead
    have h0 : ¬ hdOf row vstar L = 0 := by omega
    have hm : ¬ hdOf row vstar L ≤ (misCri : ℤ) := by omega
    simp [h0, hm]

/-! ## C1: the alternating-minimization stopping criterion

The loop condition (lines 212-217) is a conjunction
`err_hap > thre and err > thre and err_Com > thre and ite < max_ite`, so the
loop exits as soon as any one of the three quantities drops to the
threshold, not when all three do. -/

theorem amCond_lt_max (tr : AMTrace) (t : ℕ) (h : amCond tr t = true) : t < max_ite := by
  simp only [amCond, Bool.and_eq_true, decide_eq_true_eq] at h
  exact h.2

theorem amGo_ge (tr : AMTrace) : ∀ fuel t0, t0 ≤ amGo tr fuel t0 := by
  intro fuel
  induction fuel with
  | zero => intro t0; simp [amGo]
  | succ f ih =>
    intro t0
    simp only [amGo]
    split
    · exact le_trans (Nat.le_succ t0) (ih (t0 + 1))
    · exact le_refl t0

theorem amGo_cond_false (tr : AMTrace) :
    ∀ fuel t0, max_ite < t0 + fuel → amCond tr (amGo tr fuel t0) = false := by
  intro fuel
  induction fuel with
  | zero =>
    intro t0 h
    simp only [amGo]
    cases hc : amCond tr t0
    · rfl
    · have := amCond_lt_max tr t0 hc
      omega
  | succ f ih =>
    intro t0 h
    simp only [amGo]
    cases hcond : amCond tr t0
    · simpa using hcond
    · simp only [if_true]
      exact ih (t0 + 1) (by omega)

theorem amGo_prior (tr : AMTrace) :
    ∀ fuel t0 t, t0 ≤ t → t < amGo tr fuel t0 → amCond tr t = true := by
  intro fuel
  induction fuel with
  | zero =>
    intro t0 t h1 h2
    simp only [amGo] at h2
    omega
  | succ f ih =>
    intro t0 t h1 h2
    simp only [amGo] at h2
    by_cases hcond : amCond tr t0 = true
    · rw [if_pos hcond] at h2
      rcases Nat.eq_or_lt_of_le h1 with rfl | hlt
      · exact hcond
      · exact ih (t0 + 1) t hlt h2
    · rw [if_neg hcond] at h2
      omega

/-- C1 (amended): the inner loop performs between 1 and 2000 iterations; at
exit at least one of `err_hap`, `err`, `err_Com` is `≤ 10⁻⁵` or exactly 2000
iterations were performed, and at every earlier iteration all three
quantities were `> 10⁻⁵` (the loop stops at the first iteration where one of
them falls to the threshold or the cap is hit). -/
theorem amLoop_exit (tr : AMTrace) :
    (1 ≤ amIterations tr ∧ amIterations tr ≤ max_ite)
    ∧ (tr.errHap (amIterations tr) ≤ error_thre ∨ tr.err (amIterations tr) ≤ error_thre
        ∨ errComAt tr (amIterations tr) ≤ (error_thre : WithTop ℚ)
        ∨ amIterations tr = max_ite)
    ∧ (∀ t, 1 ≤ t → t < amIterations tr →
        error_thre < tr.errHap t ∧ error_thre < tr.err t
          ∧ (error_thre : WithTop ℚ) < errComAt tr t ∧ t < max_ite) := by
  have h1 : 1 ≤ amIterations tr := amGo_ge tr max_ite 1
  have hprior : ∀ t, 1 ≤ t → t < amIterations tr →
      error_thre < tr.errHap t ∧ error_thre < tr.err t
        ∧ (error_thre : WithTop ℚ) < errComAt tr t ∧ t < max_ite := by
    intro t ht1 ht2
    have := amGo_prior tr max_ite 1 t ht1 ht2
    simpa [amCond, Bool.and_eq_true, decide_eq_true_eq, and_assoc] using this
  have hle : amIterations tr ≤ max_ite := by
    by_contra hgt
    push_neg at hgt
    have := (hprior max_ite (by norm_num [max_ite]) hgt).2.2.2
    omega
  have hfalse : amCond tr (amIterations tr) = false :=
    amGo_cond_false tr max_ite 1 (by omega)
  refine ⟨⟨h1, hle⟩, ?_, hprior⟩
  simp only [amCond, Bool.and_eq_false_iff, decide_eq_false_iff_not, not_lt] at hfalse
  rcases hfalse with ((hh | he) | hc) | ht
  · exact Or.inl hh
  · exact Or.inr (Or.inl he)
  · exact Or.inr (Or.inr (Or.inl hc))
  · exact Or.inr (Or.inr (Or.inr (by omega)))

theorem amGo_stop (tr : AMTrace) (fuel t : ℕ) (h : amCond tr t = false) :
    amGo tr (fuel + 1) t = t := by simp [amGo, h]

theorem amBad_cond : amCond amBadTrace 1 = false := by
  simp only [amCond, amBadTrace, error_thre]
  norm_num

theorem amBad_iterations : amIterations amBadTrace = 1 := by
  show amGo amBadTrace 2000 1 = 1
  rw [show (2000 : ℕ) = 1999 + 1 from rfl]
  exact amGo_stop amBadTrace 1999 1 amBad_cond

/-- Counterexample to C1 as stated: on the trace where the projected residual
`err` is 0 from iteration 1 on while `err_hap` stays 1 (a perfect first-pass
fit, reachable e.g. when all reads are identical and gap-free), the loop
exits after iteration 1 with `err_hap = 1 > 10⁻⁵`, `err_Com = ∞`, and 1 ≠
2000: neither are all three quantities `≤ 10⁻⁵` at exit, nor were 2000
iterations performed. -/
theorem am_claim_counterexample :
    ¬((amBadTrace.errHap (amIterations amBadTrace) ≤ error_thre
        ∧ amBadTrace.err (amIterations amBadTrace) ≤ error_thre
        ∧ errComAt amBadTrace (amIterations amBadTrace) ≤ (error_thre : WithTop ℚ))
      ∨ amIterations amBadTrace = max_ite) := by
  rw [amBad_iterations]
  simp only [amBadTrace, errComAt, error_thre, max_ite]
  norm_num

/-! ## C3: the MEC score -/

/-- C3: the MEC recorded for a branch is exactly the number of cells `(i,j)`
with `S[i,j] ≠ 0` and `S[i,j] ≠ M_hat[i,j]`, where row `i` of the completed
matrix `M_hat` is the `reconV2` haplotype with the most identical
nucleotides to read `i` (first maximum on ties, as `np.argmax`). -/
theorem MEC_spec (S H : List (List ℕ)) (L : ℕ) :
    (∀ i < S.length, (completedMatrix S H L).getD i []
        = H.getD (assignRead (S.getD i []) H L) [])
    ∧ MEC_of S H L
      = ((Finset.range S.length ×ˢ Finset.range L).filter
          (fun p => entryOf S p.1 p.2 ≠ 0
            ∧ entryOf S p.1 p.2 ≠ entryOf (completedMatrix S H L) p.1 p.2)).card := by
  constructor
  · intro i hi
    unfold completedMatrix
    have h2 : i < (S.map (fun srow => H.getD (assignRead srow H L) [])).length := by
      simpa using hi
    rw [List.getD_eq_getElem _ _ h2, List.getElem_map, ← List.getD_eq_getElem S [] hi]
  · unfold MEC_of
    have hsum : ((List.range S.length).map (fun i =>
        ((List.range L).filter (fun j =>
          ((entryOf S i j : ℤ) - (entryOf (completedMatrix S H L) i j : ℤ))
            * (if entryOf S i j ≠ 0 then 1 else 0) ≠ 0)).length)).sum
        = ∑ i in Finset.range S.length,
            ((List.range L).filter (fun j =>
              ((entryOf S i j : ℤ) - (entryOf (completedMatrix S H L) i j : ℤ))
                * (if entryOf S i j ≠ 0 then 1 else 0) ≠ 0)).length := rfl
    rw [hsum]
    rw [Finset.card_filter, Finset.sum_product]
    apply Finset.sum_congr rfl
    intro i _
    have hlen : ((List.range L).filter (fun j =>
        ((entryOf S i j : ℤ) - (entryOf (completedMatrix S H L) i j : ℤ))
          * (if entryOf S i j ≠ 0 then 1 else 0) ≠ 0)).length
        = ((Finset.range L).filter (fun j =>
            ((entryOf S i j : ℤ) - (entryOf (completedMatrix S H L) i j : ℤ))
              * (if entryOf S i j ≠ 0 then 1 else 0) ≠ 0)).card := rfl
    rw [hlen, Finset.card_filter]
    apply Finset.sum_congr rfl
    intro j _
    congr 1
    by_cases h0 : entryOf S i j = 0
    · simp [h0]
    · simp only [h0, ne_eq, not_false_eq_true, if_true, mul_one]
      have hiff : ((entryOf S i j : ℤ) - (entryOf (completedMatrix S H L) i j : ℤ) ≠ 0)
          ↔ (entryOf S i j ≠ entryOf (completedMatrix S H L) i j) := by
        omega
      simp [hiff, h0]

/-! ## C10: deterministic tie-breaking at covered positions -/

theorem getD_set_ne {α : Type} (l : List α) (i j : ℕ) (v d : α) (h : i ≠ j) :
    (l.set i v).getD j d = l.getD j d := by
  rw [List.getD_eq_getElem?_getD, List.getD_eq_getElem?_getD, List.getElem?_set_ne h]

theorem foldl_max_mem {α : Type} [LinearOrder α] :
    ∀ (xs : List α) (x : α), xs.foldl max x ∈ x :: xs := by
  intro xs
  induction xs with
  | nil => intro x; simp [List.foldl]
  | cons y ys ih =>
    intro x
    simp only [List.foldl]
    have h2 := ih (max x y)
    rcases List.mem_cons.mp h2 with h | h
    · rw [h]
      rcases max_choice x y with hm | hm <;> simp [hm]
    · simp [h]

theorem le_foldl_max {α : Type} [LinearOrder α] :
    ∀ (xs : List α) (x y : α), y ∈ x :: xs → y ≤ xs.foldl max x := by
  intro xs
  induction xs with
  | nil => intro x y hy; simp at hy; simp [hy, List.foldl]
  | cons z zs ih =>
    intro x y hy
    simp only [List.foldl]
    rcases List.mem_cons.mp hy with rfl | hy'
    · exact le_trans (le_max_left y z) (ih (max y z) (max y z) (by simp))
    · rcases List.mem_cons.mp hy' with rfl | hy''
      · exact le_trans (le_max_right x y) (ih (max x y) (max x y) (by simp))
      · exact ih (max x z) y (by simp [hy''])

/-- `argmaxFirst` is a valid index, attains the maximum, and every earlier
index carries a strictly smaller value (numpy first-occurrence argmax). -/
theorem argmaxFirst_spec {α : Type} [LinearOrder α] (l : List α) (d : α) (h : l ≠ []) :
    argmaxFirst l < l.length
    ∧ (∀ c < l.length, l.getD c d ≤ l.getD (argmaxFirst l) d)
    ∧ (∀ c < argmaxFirst l, l.getD c d < l.getD (argmaxFirst l) d) := by
  match l, h with
  | x :: xs, _ =>
    set m := xs.foldl max x with hm
    set p : α → Bool := fun y => decide (m ≤ y) with hp
    have hmem : m ∈ x :: xs := foldl_max_mem xs x
    have hex : ∃ y ∈ x :: xs, p y = true := ⟨m, hmem, by simp [hp]⟩
    have hlt : (x :: xs).findIdx p < (x :: xs).length :=
      List.findIdx_lt_length_of_exists hex
    have hidx : argmaxFirst (x :: xs) = (x :: xs).findIdx p := rfl
    have hval : m ≤ (x :: xs)[(x :: xs).findIdx p] := by
      have := List.findIdx_getElem (w := hlt)
      simpa [hp] using this
    have hub : ∀ y ∈ x :: xs, y ≤ m := fun y hy => le_foldl_max xs x y hy
    have hvals : (x :: xs)[(x :: xs).findIdx p] = m := by
      apply le_antisymm _ hval
      exact hub _ (List.getElem_mem hlt)
    refine ⟨by rw [hidx]; exact hlt, ?_, ?_⟩
    · intro c hc
      rw [hidx, List.getD_eq_getElem _ _ hc, List.getD_eq_getElem _ _ hlt, hvals]
      exact hub _ (List.getElem_mem hc)
    · intro c hc
      rw [hidx] at hc ⊢
      have hclen : c < (x :: xs).length := lt_trans hc hlt
      rw [List.getD_eq_getElem _ _ hclen, List.getD_eq_getElem _ _ hlt, hvals]
      have hfi := List.not_of_lt_findIdx hc
      simp only [hp, decide_eq_false_iff_not, not_le] at hfi
      exact hfi

theorem applyFallback_not_mem (fallback : List (List ℕ)) :
    ∀ (uncov : List ℕ) (base : List ℕ) (rng : List ℚ) (j : ℕ), j ∉ uncov →
      (applyFallback fallback base uncov rng).1.getD j 0 = base.getD j 0 := by
  intro uncov
  induction uncov with
  | nil => intro base rng j _; rfl
  | cons u rest ih =>
    intro base rng j hj
    simp only [applyFallback]
    rw [ih _ _ j (fun hmem => hj (List.mem_cons_of_mem u hmem))]
    exact getD_set_ne _ _ _ _ _ (fun he => hj (he ▸ List.mem_cons_self u rest))

theorem applyFallback_nil (fallback : List (List ℕ)) (base : List ℕ) (rng : List ℚ) :
    applyFallback fallback base [] rng = (base, rng) := rfl

/-- C10: at any position `j` covered by at least one assigned read, all
three majority votes (the AM V-update / `reconV2` vote `voteRow`, with any
fallback matrix, and the `V_deletion` vote `voteRowDel`) return the
first-occurrence argmax of the per-position counts plus 1, independently of
the random stream; ties are broken in favor of the smallest nucleotide index
(every index before the argmax has a strictly smaller count); and when no
position is uncovered the random stream is not consumed at all. -/
theorem majority_vote_tiebreak (reads : List (List ℕ)) (L : ℕ)
    (fallback : List (List ℕ)) (j : ℕ) (hj : j < L)
    (hcov : ((singleSta reads L).getD j []).sum ≠ 0) :
    (∀ rng : List ℚ, (voteRow reads L fallback rng).1.getD j 0
        = argmaxFirst ((singleSta reads L).getD j []) + 1)
    ∧ (voteRowDel reads L).getD j 0 = argmaxFirst ((singleSta reads L).getD j []) + 1
    ∧ (∀ c < argmaxFirst ((singleSta reads L).getD j []),
        ((singleSta reads L).getD j []).getD c 0
          < ((singleSta reads L).getD j []).getD
              (argmaxFirst ((singleSta reads L).getD j [])) 0)
    ∧ (∀ rng : List ℚ, uncovPos (singleSta reads L) L = [] →
        (voteRow reads L fallback rng).2 = rng) := by
  have hnotmem : j ∉ uncovPos (singleSta reads L) L := by
    simp only [uncovPos, List.mem_filter]
    rintro ⟨-, h⟩
    exact hcov (by simpa using h)
  have hnonnil : (singleSta reads L).getD j [] ≠ [] := by
    intro hnil
    rw [hnil] at hcov
    exact hcov rfl
  refine ⟨?_, ?_, ?_, ?_⟩
  · intro rng
    unfold voteRow
    rw [applyFallback_not_mem _ _ _ _ _ hnotmem, getD_range_map _ _ _ _ hj]
  · unfold voteRowDel
    have hfold : ∀ (uncov : List ℕ) (base : List ℕ), j ∉ uncov →
        (uncov.foldl (fun b i => b.set i 0) base).getD j 0 = base.getD j 0 := by
      intro uncov
      induction uncov with
      | nil => intro base _; rfl
      | cons u rest ih =>
        intro base hju
        simp only [List.foldl]
        rw [ih _ (fun hmem => hju (List.mem_cons_of_mem u hmem))]
        exact getD_set_ne _ _ _ _ _ (fun he => hju (he ▸ List.mem_cons_self u rest))
    rw [hfold _ _ hnotmem, getD_range_map _ _ _ _ hj]
  · exact (argmaxFirst_spec _ 0 hnonnil).2.2
  · intro rng hempty
    show (applyFallback fallback
      ((List.range L).map (fun i => argmaxFirst ((singleSta reads L).getD i []) + 1))
      (uncovPos (singleSta reads L) L) rng).2 = rng
    rw [hempty, applyFallback_nil]

/-- Witness for C10 at a concrete assignment: two reads covering position 0,
with a fallback table and a nonempty random stream. -/
theorem majority_vote_tiebreak_witness :
    ((0 : ℕ) < 2 ∧ ((singleSta [[1, 0], [1, 2]] 2).getD 0 []).sum ≠ 0)
    ∧ (voteRow [[1, 0], [1, 2]] 2 [[9, 9, 0, 0], [0, 0, 0, 0]] [mkRat 1 2]).1.getD 0 0
        = argmaxFirst ((singleSta [[1, 0], [1, 2]] 2).getD 0 []) + 1 :=
  ⟨⟨by decide, by decide⟩,
    (majority_vote_tiebreak [[1, 0], [1, 2]] 2 [[9, 9, 0, 0], [0, 0, 0, 0]] 0
      (by decide) (by decide)).1 [mkRat 1 2]⟩

/-! ## C5: lemma layer for the rank-estimation loop -/

theorem isPow2_iff (n : ℕ) : isPow2 n = true ↔ ∃ k, n = 2 ^ k := by
  constructor
  · intro h
    simp only [isPow2, Bool.and_eq_true, decide_eq_true_eq] at h
    exact ⟨Nat.log2 n, h.2⟩
  · rintro ⟨k, rfl⟩
    simp only [isPow2, Bool.and_eq_true, decide_eq_true_eq]
    refine ⟨by positivity, ?_⟩
    rw [Nat.log2_eq_log_two, Nat.log_pow (by norm_num) k]

theorem ratio_iff (a b : ℤ) (ha : 1 ≤ a) (hb : 1 ≤ b) :
    ratioLog2Integral a b = true
      ↔ ∃ t : ℕ, a.toNat = b.toNat * 2 ^ t ∨ b.toNat = a.toNat * 2 ^ t := by
  have hA : 0 < a.toNat := by omega
  have hB : 0 < b.toNat := by omega
  unfold ratioLog2Integral
  by_cases h1 : a.toNat % b.toNat = 0
  · rw [if_pos h1, isPow2_iff]
    have hd : b.toNat ∣ a.toNat := Nat.dvd_iff_mod_eq_zero.mpr h1
    constructor
    · rintro ⟨k, hk⟩
      refine ⟨k, Or.inl ?_⟩
      calc a.toNat = b.toNat * (a.toNat / b.toNat) := (Nat.mul_div_cancel' hd).symm
        _ = b.toNat * 2 ^ k := by rw [hk]
    · rintro ⟨t, ht | ht⟩
      · exact ⟨t, by rw [ht, Nat.mul_div_cancel_left _ hB]⟩
      · obtain ⟨c, hc⟩ := hd
        rw [ht] at hc
        have h3 : a.toNat * (2 ^ t * c) = a.toNat * 1 := by
          rw [← mul_assoc, mul_one]; omega
        have h2 : 2 ^ t * c = 1 := Nat.eq_of_mul_eq_mul_left hA h3
        obtain ⟨hp, hc1⟩ := mul_eq_one.mp h2
        have hba : b.toNat = a.toNat := by rw [ht, hp, mul_one]
        exact ⟨0, by rw [hba, Nat.div_self hA, pow_zero]⟩
  · rw [if_neg h1]
    by_cases h2 : b.toNat % a.toNat = 0
    · rw [if_pos h2, isPow2_iff]
      have hd : a.toNat ∣ b.toNat := Nat.dvd_iff_mod_eq_zero.mpr h2
      constructor
      · rintro ⟨k, hk⟩
        refine ⟨k, Or.inr ?_⟩
        calc b.toNat = a.toNat * (b.toNat / a.toNat) := (Nat.mul_div_cancel' hd).symm
          _ = a.toNat * 2 ^ k := by rw [hk]
      · rintro ⟨t, ht | ht⟩
        · exact absurd (Nat.dvd_iff_mod_eq_zero.mp ⟨2 ^ t, ht⟩) h1
        · exact ⟨t, by rw [ht, Nat.mul_div_cancel_left _ hA]⟩
    · rw [if_neg h2]
      constructor
      · intro h
        exact absurd h (by simp)
      · rintro ⟨t, ht | ht⟩
        · exact absurd (Nat.dvd_iff_mod_eq_zero.mp ⟨2 ^ t, ht⟩) h1
        · exact absurd (Nat.dvd_iff_mod_eq_zero.mp ⟨2 ^ t, ht⟩) h2

theorem ratio_self (a : ℤ) (ha : 1 ≤ a) : ratioLog2Integral a a = true :=
  (ratio_iff a a ha ha).mpr ⟨0, Or.inl (by ring)⟩

theorem ratio_double (a b : ℤ) (ha : 1 ≤ a) (hb : 1 ≤ b)
    (h : ratioLog2Integral a b = true) : ratioLog2Integral (2 * a) b = true := by
  have h2a : (2 * a).toNat = 2 * a.toNat := by omega
  rw [ratio_iff _ _ (by omega) hb, h2a]
  obtain ⟨t, ht | ht⟩ := (ratio_iff a b ha hb).mp h
  · exact ⟨t + 1, Or.inl (by rw [ht, pow_succ]; ring)⟩
  · match t, ht with
    | 0, ht => exact ⟨1, Or.inl (by simp at ht; rw [pow_one]; omega)⟩
    | (s + 1), ht => exact ⟨s, Or.inr (by rw [pow_succ] at ht; rw [ht]; ring)⟩

theorem findCol_fst (table : List (ℤ × ℚ)) (k : ℤ) (hk : k ≠ 0) (c : ℤ × ℚ)
    (h : findCol table k = some c) : c ∈ table ∧ c.1 = k := by
  unfold findCol at h
  cases hf : table.find? (fun c => decide (c.1 = k)) with
  | some c' =>
    rw [hf] at h
    injection h with h
    subst h
    exact ⟨List.mem_of_find?_eq_some hf, by simpa using List.find?_some hf⟩
  | none =>
    rw [hf] at h
    simp only [hk, false_and, if_false] at h
    cases h

theorem getD_append_two_left {α : Type} (t : List α) (a b : α) (d : α) :
    (t ++ [a, b]).getD t.length d = a := by
  rw [List.getD_append_right _ _ _ _ (le_refl _), Nat.sub_self]
  rfl

theorem getD_append_two_right {α : Type} (t : List α) (a b : α) (d : α) :
    (t ++ [a, b]).getD (t.length + 1) d = b := by
  rw [List.getD_append_right _ _ _ _ (by omega), Nat.add_sub_cancel_left]
  rfl

theorem dropLast_append_two {α : Type} (t : List α) (a b : α) :
    (t ++ [a, b]).dropLast = t ++ [a] := by
  rw [show t ++ [a, b] = (t ++ [a]) ++ [b] by simp, List.dropLast_concat]

theorem processKIte_spec (evalF : ℤ → Except Unit KOutcome) (st : RankState)
    (kite : ℤ) (hk : 1 ≤ kite) (st' : RankState) (broke : Bool)
    (h : processKIte evalF st kite = .ok (st', broke)) :
    st'.low = st.low ∧ st'.high = st.high ∧ st'.K = st.K
    ∧ ((broke = true ∧ st'.table = st.table ∧ st'.tagsFailed = true ∧ st'.oriK = kite)
      ∨ (broke = false ∧ (∃ m, st'.table = st.table ++ [(kite, m)])
          ∧ ((st'.tagsFailed = st.tagsFailed ∧ st'.oriK = st.oriK)
              ∨ (st'.tagsFailed = false ∧ st'.oriK = kite)))) := by
  unfold processKIte at h
  split at h
  case h_1 c hfc =>
    obtain ⟨-, hcfst⟩ := findCol_fst st.table kite (by omega) c hfc
    split at h
    · injection h with h
      injection h with h1 h2
      subst h1
      refine ⟨rfl, rfl, rfl, Or.inr ⟨h2.symm, ⟨c.2, ?_⟩, Or.inl ⟨rfl, rfl⟩⟩⟩
      have hc : (kite, c.2) = c := by
        rw [← hcfst]
      rw [hc]
    · cases h
  case h_2 hfc =>
    split at h
    · cases h
    · injection h with h
      injection h with h1 h2
      subst h1
      exact ⟨rfl, rfl, rfl, Or.inl ⟨h2.symm, rfl, rfl, rfl⟩⟩
    · split at h
      · injection h with h
        injection h with h1 h2
        subst h1
        exact ⟨rfl, rfl, rfl, Or.inr ⟨h2.symm, ⟨_, rfl⟩, Or.inr ⟨rfl, rfl⟩⟩⟩
      · cases h

theorem rankPost_failed (Kstep : ℤ) (st : RankState) (brokeNow : Bool)
    (st' : RankState) (htags : st.tagsFailed = true)
    (h : rankPost Kstep st brokeNow = .ok st') :
    st'.low = st.oriK ∧ st'.high = st.high ∧ st'.tagsFailed = true ∧ st'.oriK = st.oriK
    ∧ ((st.high = 0 ∧ st'.K = 2 * st.K)
        ∨ (st.high ≠ 0 ∧ st'.K = (st.oriK + st.high) / 2))
    ∧ ((brokeNow = true ∧ st'.table = st.table ++ [(st.oriK, 0)])
        ∨ (brokeNow = false ∧ st'.table = st.table.dropLast
            ++ [(st.oriK, (st.table.getD (st.table.length - 1) (0, 0)).2)])) := by
  unfold rankPost at h
  rw [htags] at h
  simp only [if_true] at h
  cases brokeNow with
  | true =>
    simp only [if_true] at h
    split at h
    · split at h
      case isTrue hh0 =>
        injection h with h
        subst h
        exact ⟨rfl, rfl, rfl, rfl, Or.inl ⟨hh0, rfl⟩, Or.inl ⟨rfl, rfl⟩⟩
      case isFalse hh0 =>
        injection h with h
        subst h
        exact ⟨rfl, rfl, rfl, rfl, Or.inr ⟨hh0, rfl⟩, Or.inl ⟨rfl, rfl⟩⟩
    · cases h
  | false =>
    simp only [Bool.false_eq_true, if_false] at h
    split at h
    case isTrue hh0 =>
      injection h with h
      subst h
      exact ⟨rfl, rfl, rfl, rfl, Or.inl ⟨hh0, rfl⟩, Or.inr ⟨rfl, rfl⟩⟩
    case isFalse hh0 =>
      injection h with h
      subst h
      exact ⟨rfl, rfl, rfl, rfl, Or.inr ⟨hh0, rfl⟩, Or.inr ⟨rfl, rfl⟩⟩

theorem rankPost_rate (Kstep : ℤ) (st : RankState) (brokeNow : Bool)
    (st' : RankState) (htags : st.tagsFailed = false)
    (h : rankPost Kstep st brokeNow = .ok st') :
    st'.table = st.table ∧ st'.tagsFailed = false ∧ st'.oriK = st.oriK
    ∧ ((st'.low = (st.table.getD (st.table.length - 2) (0, 0)).1
          ∧ st'.high = st.high ∧ 1 ≤ (st.table.getD (st.table.length - 2) (0, 0)).1
          ∧ (st'.K = 2 * st.K
              ∨ (ratioLog2Integral (st.table.getD (st.table.length - 2) (0, 0)).1 Kstep
                    = false
                  ∧ st'.K = ((st.table.getD (st.table.length - 2) (0, 0)).1 + st.high) / 2)))
      ∨ (st'.low = st.low ∧ st'.high = (st.table.getD (st.table.length - 2) (0, 0)).1
          ∧ st'.K = (st.low + (st.table.getD (st.table.length - 2) (0, 0)).1) / 2)) := by
  unfold rankPost at h
  rw [htags] at h
  simp only [Bool.false_eq_true, if_false] at h
  split at h
  · split at h
    · cases h
    case isFalse hpos =>
      push_neg at hpos
      split at h
      case isTrue hrat =>
        injection h with h
        subst h
        exact ⟨rfl, rfl, rfl, Or.inl ⟨rfl, rfl, by omega, Or.inl rfl⟩⟩
      case isFalse hrat =>
        injection h with h
        subst h
        refine ⟨rfl, rfl, rfl, Or.inl ⟨rfl, rfl, by omega, Or.inr ⟨?_, rfl⟩⟩⟩
        cases hr : ratioLog2Integral (st.table.getD (st.table.length - 2) (0, 0)).1 Kstep
        · rfl
        · exact absurd hr hrat
  · injection h with h
    subst h
    exact ⟨rfl, rfl, rfl, Or.inr ⟨rfl, rfl, rfl⟩⟩

theorem rankStep_inv (evalF : ℤ → Except Unit KOutcome) (Kstep : ℤ) (hKs : 1 ≤ Kstep)
    (st st' : RankState) (hinv : RankInv Kstep st)
    (h : rankStep evalF Kstep st = .ok st') :
    RankInv Kstep st' ∧ ∃ ext, st'.table = st.table ++ ext := by
  obtain ⟨hlow, hK, hhigh, horiK, htab, hhightab, hratio⟩ := hinv
  unfold rankStep at h
  split at h
  · cases h
  case h_2 st1 heq1 =>
    obtain ⟨e1low, e1high, e1K, e1rest⟩ :=
      processKIte_spec evalF st st.K hK st1 true heq1
    rcases e1rest with ⟨-, e1tab, e1tags, e1ori⟩ | ⟨hfalse, -, -⟩
    swap
    · cases hfalse
    obtain ⟨flow, fhigh, ftags, fori, fKalt, ftab⟩ :=
      rankPost_failed Kstep st1 true st' e1tags h
    rcases ftab with ⟨-, ftab⟩ | ⟨hfalse, -⟩
    swap
    · cases hfalse
    have htab' : st'.table = st.table ++ [(st.K, 0)] := by
      rw [ftab, e1tab, e1ori]
    refine ⟨⟨?_, ?_, ?_, ?_, ?_, ?_, ?_⟩, ⟨[(st.K, 0)], htab'⟩⟩
    · rw [flow, e1ori]; exact hK
    · rcases fKalt with ⟨-, hk2⟩ | ⟨hne, hk2⟩
      · rw [hk2, e1K]; omega
      · rw [hk2, e1ori, e1high]
        have : 1 ≤ st.high := by
          rw [e1high] at hne
          omega
        omega
    · rw [fhigh, e1high]; exact hhigh
    · intro _
      rw [fori, e1ori]; exact hK
    · intro c hc
      rw [htab'] at hc
      rcases List.mem_append.mp hc with hc | hc
      · exact htab c hc
      · simp at hc
        rw [hc]; exact hK
    · rw [fhigh, e1high]
      rcases hhightab with h0 | ⟨c, hc, hcfst⟩
      · exact Or.inl h0
      · exact Or.inr ⟨c, by rw [htab']; exact List.mem_append_left _ hc, hcfst⟩
    · intro h0
      rw [fhigh, e1high] at h0
      rcases fKalt with ⟨-, hk2⟩ | ⟨hne, -⟩
      · rw [hk2, e1K]
        exact ratio_double st.K Kstep hK hKs (hratio h0)
      · rw [e1high] at hne
        exact absurd h0 hne
  case h_3 st1 heq1 =>
    obtain ⟨e1low, e1high, e1K, e1rest⟩ :=
      processKIte_spec evalF st st.K hK st1 false heq1
    rcases e1rest with ⟨hfalse, -⟩ | ⟨-, ⟨m1, e1tab⟩, e1tags⟩
    · cases hfalse
    split at h
    · cases h
    case h_2 st2 broke2 heq2 =>
      obtain ⟨e2low, e2high, e2K, e2rest⟩ :=
        processKIte_spec evalF st1 (st.K + 1) (by omega) st2 broke2 heq2
      cases broke2 with
      | true =>
        rcases e2rest with ⟨-, e2tab, e2tags, e2ori⟩ | ⟨hfalse, -⟩
        swap
        · cases hfalse
        obtain ⟨flow, fhigh, ftags, fori, fKalt, ftab⟩ :=
          rankPost_failed Kstep st2 true st' e2tags h
        rcases ftab with ⟨-, ftab⟩ | ⟨hfalse, -⟩
        swap
        · cases hfalse
        have htab' : st'.table = st.table ++ [(st.K, m1), (st.K + 1, 0)] := by
          rw [ftab, e2tab, e1tab, e2ori, List.append_assoc]
          rfl
        refine ⟨⟨?_, ?_, ?_, ?_, ?_, ?_, ?_⟩, ⟨[(st.K, m1), (st.K + 1, 0)], htab'⟩⟩
        · rw [flow, e2ori]; omega
        · rcases fKalt with ⟨-, hk2⟩ | ⟨hne, hk2⟩
          · rw [hk2, e2K, e1K]; omega
          · rw [hk2, e2ori, e2high, e1high]
            have : 1 ≤ st.high := by
              rw [e2high, e1high] at hne
              omega
            omega
        · rw [fhigh, e2high, e1high]; exact hhigh
        · intro _
          rw [fori, e2ori]; omega
        · intro c hc
          rw [htab'] at hc
          rcases List.mem_append.mp hc with hc | hc
          · exact htab c hc
          · simp at hc
            rcases hc with hc | hc <;> rw [hc] <;> omega
        · rw [fhigh, e2high, e1high]
          rcases hhightab with h0 | ⟨c, hc, hcfst⟩
          · exact Or.inl h0
          · exact Or.inr ⟨c, by rw [htab']; exact List.mem_append_left _ hc, hcfst⟩
        · intro h0
          rw [fhigh, e2high, e1high] at h0
          rcases fKalt with ⟨-, hk2⟩ | ⟨hne, -⟩
          · rw [hk2, e2K, e1K]
            exact ratio_double st.K Kstep hK hKs (hratio h0)
          · rw [e2high, e1high] at hne
            exact absurd h0 hne
      | false =>
        rcases e2rest with ⟨hfalse, -⟩ | ⟨-, ⟨m2, e2tab⟩, e2tags⟩
        · cases hfalse
        have htab2 : st2.table = st.table ++ [(st.K, m1), (st.K + 1, m2)] := by
          rw [e2tab, e1tab, List.append_assoc]
          rfl
        have hc1 : st2.table.getD (st2.table.length - 2) (0, 0) = (st.K, m1) := by
          rw [htab2]
          have hl : (st.table ++ [(st.K, m1), (st.K + 1, m2)]).length
              = st.table.length + 2 := by simp
          rw [hl, Nat.add_sub_cancel, getD_append_two_left]
        cases htf : st2.tagsFailed with
        | true =>
          have horiK2 : 1 ≤ st2.oriK := by
            rcases e2tags with ⟨ep, eo⟩ | ⟨ef, -⟩
            · rw [eo]
              rcases e1tags with ⟨ep1, eo1⟩ | ⟨ef1, eo1⟩
              · rw [eo1]
                apply horiK
                rw [← ep1, ← ep]
                exact htf
              · rw [ep, ef1] at htf
                cases htf
            · rw [ef] at htf
              cases htf
          obtain ⟨flow, fhigh, ftags, fori, fKalt, ftab⟩ :=
            rankPost_failed Kstep st2 false st' htf h
          rcases ftab with ⟨hfalse, -⟩ | ⟨-, ftab⟩
          · cases hfalse
          have htab' : st'.table
              = st.table ++ [(st.K, m1), (st2.oriK,
                  (st2.table.getD (st2.table.length - 1) (0, 0)).2)] := by
            rw [ftab, htab2, dropLast_append_two, List.append_assoc]
            rfl
          refine ⟨⟨?_, ?_, ?_, ?_, ?_, ?_, ?_⟩,
            ⟨[(st.K, m1), (st2.oriK, (st2.table.getD (st2.table.length - 1) (0, 0)).2)],
              htab'⟩⟩
          · rw [flow]; exact horiK2
          · rcases fKalt with ⟨-, hk2⟩ | ⟨hne, hk2⟩
            · rw [hk2, e2K, e1K]; omega
            · rw [hk2, e2high, e1high]
              have : 1 ≤ st.high := by
                rw [e2high, e1high] at hne
                omega
              omega
          · rw [fhigh, e2high, e1high]; exact hhigh
          · intro _
            rw [fori]; exact horiK2
          · intro c hc
            rw [htab'] at hc
            rcases List.mem_append.mp hc with hc | hc
            · exact htab c hc
            · simp at hc
              rcases hc with hc | hc <;> rw [hc]
              · omega
              · exact horiK2
          · rw [fhigh, e2high, e1high]
            rcases hhightab with h0 | ⟨c, hc, hcfst⟩
            · exact Or.inl h0
            · exact Or.inr ⟨c, by rw [htab']; exact List.mem_append_left _ hc, hcfst⟩
          · intro h0
            rw [fhigh, e2high, e1high] at h0
            rcases fKalt with ⟨-, hk2⟩ | ⟨hne, -⟩
            · rw [hk2, e2K, e1K]
              exact ratio_double st.K Kstep hK hKs (hratio h0)
            · rw [e2high, e1high] at hne
              exact absurd h0 hne
        | false =>
          obtain ⟨ftab, ftags, fori, falt⟩ := rankPost_rate Kstep st2 false st' htf h
          have hmem1 : (st.K, m1) ∈ st'.table := by
            rw [ftab, htab2]
            exact List.mem_append_right _ (by simp)
          have hc1fst : (st2.table.getD (st2.table.length - 2) (0, 0)).1 = st.K := by
            rw [hc1]
          refine ⟨⟨?_, ?_, ?_, ?_, ?_, ?_, ?_⟩,
            ⟨[(st.K, m1), (st.K + 1, m2)], by rw [ftab, htab2]⟩⟩
          · rcases falt with ⟨fl, -, hc1ge, -⟩ | ⟨fl, -, -⟩
            · rw [fl, hc1fst]; exact hK
            · rw [fl, e2low, e1low]; exact hlow
          · rcases falt with ⟨-, -, -, hKalt⟩ | ⟨-, fh, fK⟩
            · rcases hKalt with hk2 | ⟨hrfalse, hk2⟩
              · rw [hk2, e2K, e1K]; omega
              · rw [hc1fst] at hrfalse
                have hne0 : st.high ≠ 0 := by
                  intro h0
                  rw [hratio h0] at hrfalse
                  cases hrfalse
                have hk2' : st'.K = (st.K + st.high) / 2 := by
                  rw [hk2, hc1fst, e2high, e1high]
                rw [hk2']
                omega
            · have fK' : st'.K = (st.low + st.K) / 2 := by
                rw [fK, hc1fst, e2low, e1low]
              rw [fK']
              omega
          · rcases falt with ⟨-, fh, -, -⟩ | ⟨-, fh, -⟩
            · rw [fh, e2high, e1high]; exact hhigh
            · rw [fh, hc1fst]; omega
          · intro htft
            rw [ftags] at htft
            cases htft
          · intro c hc
            rw [ftab, htab2] at hc
            rcases List.mem_append.mp hc with hc | hc
            · exact htab c hc
            · simp at hc
              rcases hc with hc | hc <;> rw [hc] <;> omega
          · rcases falt with ⟨-, fh, -, -⟩ | ⟨-, fh, -⟩
            · rw [fh, e2high, e1high]
              rcases hhightab with h0 | ⟨c, hc, hcfst⟩
              · exact Or.inl h0
              · refine Or.inr ⟨c, ?_, hcfst⟩
                rw [ftab, htab2]
                exact List.mem_append_left _ hc
            · rw [fh, hc1fst]
              exact Or.inr ⟨(st.K, m1), hmem1, rfl⟩
          · intro h0
            rcases falt with ⟨-, fh, -, hKalt⟩ | ⟨-, fh, -⟩
            · rw [fh, e2high, e1high] at h0
              rcases hKalt with hk2 | ⟨hrfalse, -⟩
              · rw [hk2, e2K, e1K]
                exact ratio_double st.K Kstep hK hKs (hratio h0)
              · rw [hc1fst, hratio h0] at hrfalse
                cases hrfalse
            · rw [fh, hc1fst] at h0
              omega

theorem rankLoop_done (evalF : ℤ → Except Unit KOutcome) (Kstep : ℤ) (hKs : 1 ≤ Kstep) :
    ∀ (fuel : ℕ) (st0 st : RankState), RankInv Kstep st0 →
      rankLoop evalF Kstep fuel st0 = .done st →
      RankInv Kstep st ∧ st.high - st.low = 1 := by
  intro fuel
  induction fuel with
  | zero =>
    intro st0 st _ h
    simp only [rankLoop] at h
    cases h
  | succ f ih =>
    intro st0 st hinv h
    simp only [rankLoop] at h
    split at h
    · split at h
      · cases h
      case h_2 st1 hstep =>
        exact ih st1 st (rankStep_inv evalF Kstep hKs st0 st1 hinv hstep).1 h
    case isFalse hc =>
      injection h with h
      subst h
      refine ⟨hinv, ?_⟩
      omega

/-- C5 (amended): whenever the rank-estimation loop exits normally (for any
per-K evaluation function and any initial `K ≥ 1`), the bisection state
satisfies `high − low = 1` at exit, and the final lookup of line 529
succeeds: a filled `MEC_table` column with K equal to `K_table[1] = high`
exists, and the selected entry is the first such column. -/
theorem rank_loop_partial (evalF : ℤ → Except Unit KOutcome) (K0 : ℤ) (fuel : ℕ)
    (st : RankState) (hK0 : 1 ≤ K0) (h : rankRun evalF K0 fuel = .done st) :
    st.high - st.low = 1 ∧ 1 ≤ st.low ∧ 2 ≤ st.high
    ∧ ∃ i, chosenIdx st = some i ∧ (st.table.getD i (0, 0)).1 = st.high := by
  have hinit : RankInv K0 (rankInit K0) := by
    refine ⟨by norm_num [rankInit], hK0, by norm_num [rankInit], ?_, ?_, ?_, ?_⟩
    · intro h'
      simp [rankInit] at h'
    · intro c hc
      simp [rankInit] at hc
    · exact Or.inl rfl
    · intro _
      exact ratio_self K0 hK0
  obtain ⟨⟨hlow, hK, hhigh, -, htab, hhightab, -⟩, hdiff⟩ :=
    rankLoop_done evalF K0 hK0 fuel (rankInit K0) st hinit h
  have hh2 : 2 ≤ st.high := by omega
  rcases hhightab with h0 | ⟨c, hc, hcfst⟩
  · omega
  · have hex : ∃ x ∈ st.table, (fun c : ℤ × ℚ => decide (c.1 = st.high)) x = true :=
      ⟨c, hc, by simp [hcfst]⟩
    have hidx : st.table.findIdx (fun c => decide (c.1 = st.high)) < st.table.length :=
      List.findIdx_lt_length_of_exists hex
    refine ⟨hdiff, hlow, hh2,
      st.table.findIdx (fun c => decide (c.1 = st.high)), ?_, ?_⟩
    · unfold chosenIdx
      rw [if_pos hidx]
    · have hgl := List.findIdx_getElem (w := hidx)
      rw [List.getD_eq_getElem _ _ hidx]
      simpa using hgl

/-- Counterexample to C5 as stated: on the valid one-read input `oneReadS`
with the default initial `K = 5` (error rate 0.2%, the precomputed mismatch
budget of the single read, and the original ACGT counts), the run crashes
inside the first per-K evaluation — the clustering guard `len(M_E) > R` is
false, no haplotype is recorded, and `np.argmax` on the empty axis of line
410 raises — so the bisection never reaches `high − low = 1` and no K is
chosen. (The AM oracles and the random stream are irrelevant: the crash
happens before either is consulted.) -/
theorem rank_claim_counterexample :
    rankRun (evalFOf oneReadS 2 (1 / 500) [7] (ACGT_count oneReadS)
      (fun _ => []) (fun _ => []) []) 5 10 = RankRes.crashed := by
  rfl

theorem rankRun_const : rankRun constEvalF 2 5 = .done rankDoneSt := by
  have h1 : processKIte constEvalF ⟨1, 0, 2, [], false, 0⟩ 2
      = .ok (⟨1, 0, 2, [(2, 10)], false, 2⟩, false) := rfl
  have h2 : processKIte constEvalF ⟨1, 0, 2, [(2, 10)], false, 2⟩ 3
      = .ok (⟨1, 0, 2, [(2, 10), (3, 10)], false, 3⟩, false) := rfl
  have h3 : rankPost 2 ⟨1, 0, 2, [(2, 10), (3, 10)], false, 3⟩ false
      = .ok rankDoneSt := by
    unfold rankPost
    norm_num [MEC_thre, rankDoneSt]
  have hstep : rankStep constEvalF 2 (rankInit 2) = .ok rankDoneSt := by
    unfold rankStep rankInit
    rw [show (⟨1, 0, 2, [], false, 0⟩ : RankState).K = 2 from rfl, h1]
    dsimp only
    rw [show (2 : ℤ) + 1 = 3 from rfl, h2]
    exact h3
  show rankLoop constEvalF 2 5 (rankInit 2) = .done rankDoneSt
  rw [show (5 : ℕ) = 4 + 1 from rfl]
  simp only [rankLoop]
  rw [if_pos (by norm_num [rankInit])]
  rw [hstep]
  dsimp only
  rw [if_neg (by norm_num [rankDoneSt])]

/-- Witness for C5 (amended) at the constant evaluation from `K = 2`. -/
theorem rank_loop_partial_witness :
    ((1 : ℤ) ≤ 2 ∧ rankRun constEvalF 2 5 = .done rankDoneSt)
    ∧ (rankDoneSt.high - rankDoneSt.low = 1 ∧ 1 ≤ rankDoneSt.low
        ∧ 2 ≤ rankDoneSt.high
        ∧ ∃ i, chosenIdx rankDoneSt = some i
            ∧ (rankDoneSt.table.getD i (0, 0)).1 = rankDoneSt.high) :=
  ⟨⟨by norm_num, rankRun_const⟩,
    rank_loop_partial constEvalF 2 5 rankDoneSt (by norm_num) rankRun_const⟩

/-! ## C6: the empty-selection guard -/

/-- C6: in any successive-clustering iteration whose selection step selects
no reads, the loop returns immediately with the branch-fail flag `false` and
the state unchanged (no haplotype recorded in `reconV`, no reads or budgets
peeled); a `false` flag keeps the branch's MEC slot at `+∞`; and a branch
whose clustering loop failed produces a normal value (`.ok` with MEC `⊤`,
random stream untouched), not an exception, so the rank estimator
proceeds. -/
theorem empty_selection_guard (L : ℕ) (eps : ℚ) (amO : ℕ → List ℕ) (fuel : ℕ)
    (st : ClusterState)
    (hguard : st.R ≠ 0 ∧ st.M_E.length > st.R)
    (hempty : selectIndices st.M_E (amO st.reconV.length) st.misCri L eps = []) :
    clusterLoop L eps amO (fuel + 1) st = (st, false)
    ∧ (∀ score : ℕ, mecEntry false score = ⊤)
    ∧ (∀ (S : List (List ℕ)) (misCri0 : List ℕ) (oriCnt : List (List ℕ))
        (amO2 : ℕ → List ℕ) (rng : List ℚ) (R : ℕ),
        (clusterLoop L eps amO2 (R + 1) ⟨S, misCri0, [], R⟩).2 = false →
        evalBranch S L eps misCri0 oriCnt amO2 rng R = .ok (⊤, rng)) := by
  refine ⟨?_, fun _ => rfl, ?_⟩
  · simp only [clusterLoop]
    rw [if_pos hguard]
    rw [hempty]
    simp
  · intro S misCri0 oriCnt amO2 rng R htag
    unfold evalBranch
    dsimp only
    rw [htag]
    rfl

/-- Witness for C6: two reads at Hamming distance 2 from the oracle
haplotype with mismatch budgets 1 select nothing, and the loop aborts
unchanged with the flag down. -/
theorem empty_selection_guard_witness :
    (((1 : ℕ) ≠ 0 ∧ ([[1, 1], [2, 2]] : List (List ℕ)).length > 1)
      ∧ selectIndices [[1, 1], [2, 2]] [3, 3] [1, 1] 2 (1 / 500) = [])
    ∧ clusterLoop 2 (1 / 500) (fun _ => [3, 3]) 1 ⟨[[1, 1], [2, 2]], [1, 1], [], 1⟩
        = (⟨[[1, 1], [2, 2]], [1, 1], [], 1⟩, false) :=
  ⟨⟨⟨by decide, by decide⟩, by decide⟩,
    (empty_selection_guard 2 (1 / 500) (fun _ => [3, 3]) 0
      ⟨[[1, 1], [2, 2]], [1, 1], [], 1⟩ ⟨by decide, by decide⟩ (by decide)).1⟩

/-! ## C7: the FASTA frequency total -/

theorem ctr_fre_count : fre_countOf ctrS ctrRV 2 = [2, 0, 1] := by decide

theorem ctr_V_del : V_deletionOf ctrS ctrRV 2 = [[1, 1], [0, 0], [2, 2]] := by decide

theorem ctr_popSize : popSizeOf ctrS ctrRV 2 = 1 := by decide

theorem ctr_fre : viralseq_freOf ctrS ctrRV 2 = [2 / 3, 0, 1 / 3] := by
  rw [viralseq_freOf, ctr_fre_count]
  norm_num

theorem ctr_index : viralfre_indexOf ctrS ctrRV 2 = [0, 2, 1] := by
  rw [viralfre_indexOf, ctr_fre]
  norm_num [argsortDesc, argsortAsc, insertAsc, List.range_succ]

theorem ctr_V_del_new : V_deletion_newOf ctrS ctrRV 2 = [[1, 1]] := by
  rw [V_deletion_newOf, ctr_index, ctr_popSize, ctr_V_del]
  rfl

theorem ctr_fre_new : viralseq_fre_newOf ctrS ctrRV 2 = [2 / 3] := by
  rw [viralseq_fre_newOf, ctr_popSize, ctr_V_del, ctr_fre]
  simp only [ctr_V_del_new]
  norm_num [List.range_succ]

theorem ctr_quasi : QuasiOf ctrS ctrRV 2 [1, 1] [0, 1] = [[1, 1]] := by
  rw [QuasiOf, ctr_V_del_new]
  decide

/-- Counterexample to C7 as stated: with the original reads `ctrS` and the
chosen haplotypes `ctrRV` (two identical rows and one dependent row), the
`V_deletion` matrix `[[1,1],[0,0],[2,2]]` has rank 1, so only the top
haplotype is retained; the dropped rows' frequencies are lost and the
frequencies written to the FASTA total 2/3, not 1. -/
theorem fasta_sum_counterexample :
    (fastaFreqsOf ctrS ctrRV 2 [1, 1] [0, 1]).sum ≠ 1 := by
  have hv : fastaFreqsOf ctrS ctrRV 2 [1, 1] [0, 1] = [2 / 3] := by
    rw [fastaFreqsOf, ctr_quasi, ctr_fre_new]
    norm_num [hashTableOf, hashAdd, argsortDesc, argsortAsc, insertAsc,
      List.range_succ]
  rw [hv]
  norm_num

theorem hashAdd_snd_sum (k : List ℕ) (v : ℚ) :
    ∀ h : List (List ℕ × ℚ),
      ((hashAdd h k v).map Prod.snd).sum = (h.map Prod.snd).sum + v := by
  intro h
  induction h with
  | nil => simp [hashAdd]
  | cons p rest ih =>
    unfold hashAdd
    by_cases hpk : p.1 = k
    · rw [if_pos hpk]
      simp only [List.map, List.sum_cons]
      ring
    · rw [if_neg hpk]
      simp only [List.map, List.sum_cons, ih]
      ring

theorem hashFold_sum (keys : List (List ℕ)) (vals : List ℚ) :
    ∀ (idx : List ℕ) (h0 : List (List ℕ × ℚ)),
      ((idx.foldl (fun h i => hashAdd h (keys.getD i []) (vals.getD i 0)) h0).map
          Prod.snd).sum
        = (h0.map Prod.snd).sum + (idx.map (fun i => vals.getD i 0)).sum := by
  intro idx
  induction idx with
  | nil =>
    intro h0
    simp
  | cons i rest ih =>
    intro h0
    simp only [List.foldl, List.map, List.sum_cons]
    rw [ih, hashAdd_snd_sum]
    ring

theorem hashTable_snd_sum (keys : List (List ℕ)) (vals : List ℚ) :
    ((hashTableOf keys vals).map Prod.snd).sum
      = ((List.range keys.length).map (fun i => vals.getD i 0)).sum := by
  rw [hashTableOf, hashFold_sum]
  simp

theorem insertAsc_perm (v : List ℚ) (i : ℕ) :
    ∀ l : List ℕ, (insertAsc v i l).Perm (i :: l) := by
  intro l
  induction l with
  | nil => simp [insertAsc]
  | cons j rest ih =>
    unfold insertAsc
    split
    · exact List.Perm.refl _
    · exact (ih.cons j).trans (List.Perm.swap i j rest)

theorem foldl_insertAsc_perm (v : List ℚ) :
    ∀ (idx : List ℕ) (acc : List ℕ),
      (idx.foldl (fun a i => insertAsc v i a) acc).Perm (idx ++ acc) := by
  intro idx
  induction idx with
  | nil =>
    intro acc
    simp
  | cons i rest ih =>
    intro acc
    simp only [List.foldl, List.cons_append]
    refine (ih (insertAsc v i acc)).trans ?_
    refine (List.Perm.append_left rest (insertAsc_perm v i acc)).trans ?_
    exact List.perm_middle

theorem argsortDesc_perm (v : List ℚ) :
    (argsortDesc v).Perm (List.range v.length) := by
  refine (List.reverse_perm _).trans ?_
  rw [argsortAsc]
  have h := foldl_insertAsc_perm v (List.range v.length) []
  simpa using h

theorem map_getD_range_q (l : List ℚ) :
    (List.range l.length).map (fun i => l.getD i 0) = l := by
  apply List.ext_getElem
  · simp
  · intro i h1 h2
    rw [List.getElem_map, List.getElem_range, List.getD_eq_getElem _ _ h2]

theorem permute_sum (vals : List ℚ) :
    ((argsortDesc vals).map (fun i => vals.getD i 0)).sum = vals.sum := by
  have hperm := (argsortDesc_perm vals).map (fun i => vals.getD i 0)
  rw [hperm.sum_eq, map_getD_range_q]

theorem filter_count_partition (m : ℕ) :
    ∀ (a : List ℕ), (∀ x ∈ a, x < m) →
      ((List.range m).map (fun i => (a.filter (fun x => x = i)).length)).sum
        = a.length := by
  intro a
  induction a with
  | nil =>
    intro _
    simp
  | cons x rest ih =>
    intro hx
    have hrest := ih (fun y hy => hx y (List.mem_cons_of_mem x hy))
    have hxm : x < m := hx x (List.mem_cons_self x rest)
    have hstep : ∀ i, ((x :: rest).filter (fun y => decide (y = i))).length
        = (if x = i then 1 else 0) + (rest.filter (fun y => decide (y = i))).length := by
      intro i
      by_cases h : x = i
      · rw [List.filter_cons]
        simp only [h, decide_true_eq_true, if_true, decide_eq_true_eq]
        simp [List.length_cons]
        omega
      · rw [List.filter_cons]
        simp [h]
    have hL : ((List.range m).map
        (fun i => ((x :: rest).filter (fun y => decide (y = i))).length)).sum
        = ∑ i in Finset.range m,
            ((if x = i then 1 else 0)
              + (rest.filter (fun y => decide (y = i))).length) := by
      simp only [hstep]
      rfl
    rw [hL, Finset.sum_add_distrib]
    have h1 : ∑ i in Finset.range m, (if x = i then 1 else 0) = 1 := by
      rw [Finset.sum_ite_eq (Finset.range m) x (fun _ => 1)]
      simp [hxm]
    have h2 : ∑ i in Finset.range m, (rest.filter (fun y => decide (y = i))).length
        = rest.length := hrest
    rw [h1, h2, List.length_cons]
    omega

theorem sum_map_div (l : List ℕ) (d : ℚ) :
    (l.map (fun c : ℕ => (c : ℚ) / d)).sum = ((l.sum : ℕ) : ℚ) / d := by
  induction l with
  | nil => simp
  | cons x rest ih =>
    rw [List.map_cons, List.sum_cons, ih, List.sum_cons]
    push_cast
    rw [add_div]

theorem assignRead_lt (srow : List ℕ) (rv2 : List (List ℕ)) (L : ℕ)
    (hrv : rv2 ≠ []) : assignRead srow rv2 L < rv2.length := by
  unfold assignRead
  have hne : rv2.map (fun hap => identCount srow hap L) ≠ [] := by
    simpa using hrv
  have h := (argmaxFirst_spec (rv2.map (fun hap => identCount srow hap L)) 0 hne).1
  simpa using h

theorem viralseq_fre_sum (S rv2 : List (List ℕ)) (L : ℕ) (hS : S ≠ [])
    (hrv : rv2 ≠ []) : (viralseq_freOf S rv2 L).sum = 1 := by
  unfold viralseq_freOf
  rw [sum_map_div]
  have hsum : (fre_countOf S rv2 L).sum = S.length := by
    unfold fre_countOf
    have hbound : ∀ x ∈ postAssignOf S rv2 L, x < rv2.length := by
      intro x hx
      unfold postAssignOf at hx
      simp only [List.mem_map] at hx
      obtain ⟨srow, -, rfl⟩ := hx
      exact assignRead_lt srow rv2 L hrv
    have h := filter_count_partition rv2.length (postAssignOf S rv2 L) hbound
    have hlen : (postAssignOf S rv2 L).length = S.length := by
      simp [postAssignOf]
    rw [← hlen]
    exact h
  rw [hsum, div_self]
  have : S.length ≠ 0 := by
    intro h0
    exact hS (List.length_eq_zero.mp h0)
  exact_mod_cast this

theorem rankZGo_le : ∀ (n : ℕ) (rows : List (List ℤ)), rankZGo n rows ≤ rows.length := by
  intro n
  induction n with
  | zero =>
    intro rows
    simp [rankZGo]
  | succ n ih =>
    intro rows
    simp only [rankZGo]
    cases hfind : rows.find? (fun r => decide (r.headD 0 ≠ 0)) with
    | none =>
      dsimp only
      have h := ih (rows.map List.tail)
      simpa using h
    | some p =>
      dsimp only
      have hmem : p ∈ rows := List.mem_of_find?_eq_some hfind
      have hpos : 0 < rows.length := List.length_pos.mpr (List.ne_nil_of_mem hmem)
      have hlen : (rows.erase p).length = rows.length - 1 :=
        List.length_erase_of_mem hmem
      have h := ih ((rows.erase p).map (fun r =>
          List.zipWith (fun x y => p.headD 0 * x - r.headD 0 * y) r.tail p.tail))
      rw [List.length_map, hlen] at h
      omega

theorem V_deletion_length (S rv2 : List (List ℕ)) (L : ℕ) :
    (V_deletionOf S rv2 L).length = rv2.length := by
  simp [V_deletionOf]

theorem viralseq_fre_length (S rv2 : List (List ℕ)) (L : ℕ) :
    (viralseq_freOf S rv2 L).length = rv2.length := by
  simp [viralseq_freOf, fre_countOf]

theorem popSize_le (S rv2 : List (List ℕ)) (L : ℕ) :
    popSizeOf S rv2 L ≤ rv2.length := by
  unfold popSizeOf rankZ
  refine le_trans (rankZGo_le _ _) ?_
  rw [List.length_map, V_deletion_length]

theorem argsort_length (v : List ℚ) : (argsortDesc v).length = v.length := by
  have h := (argsortDesc_perm v).length_eq
  simpa using h

theorem viralfre_index_length (S rv2 : List (List ℕ)) (L : ℕ) :
    (viralfre_indexOf S rv2 L).length = rv2.length := by
  rw [viralfre_indexOf, argsort_length, viralseq_fre_length]

theorem V_del_new_length (S rv2 : List (List ℕ)) (L : ℕ) :
    (V_deletion_newOf S rv2 L).length = popSizeOf S rv2 L := by
  rw [V_deletion_newOf, List.length_map, List.length_take, viralfre_index_length]
  exact min_eq_left (popSize_le S rv2 L)

theorem fre_new_length (S rv2 : List (List ℕ)) (L : ℕ) :
    (viralseq_fre_newOf S rv2 L).length = popSizeOf S rv2 L := by
  simp [viralseq_fre_newOf]

theorem Quasi_length (S rv2 : List (List ℕ)) (L : ℕ) (Homoseq SNVpos : List ℕ) :
    (QuasiOf S rv2 L Homoseq SNVpos).length = (V_deletion_newOf S rv2 L).length := by
  simp [QuasiOf]

theorem list_range_map_sum (n : ℕ) (f : ℕ → ℚ) :
    ((List.range n).map f).sum = ∑ i in Finset.range n, f i := rfl

theorem fre_new_sum (S rv2 : List (List ℕ)) (L : ℕ)
    (hS : S ≠ []) (hrv : rv2 ≠ [])
    (hdist : List.Pairwise (fun a b => a ≠ b) (V_deletion_newOf S rv2 L))
    (hcover : ∀ j < (V_deletionOf S rv2 L).length,
      ∃ i < (V_deletion_newOf S rv2 L).length,
        (V_deletion_newOf S rv2 L).getD i [] = (V_deletionOf S rv2 L).getD j []) :
    (viralseq_fre_newOf S rv2 L).sum = 1 := by
  have hnlen : (V_deletion_newOf S rv2 L).length = popSizeOf S rv2 L :=
    V_del_new_length S rv2 L
  have hret : ∀ a b, a < popSizeOf S rv2 L → b < popSizeOf S rv2 L → a ≠ b →
      (V_deletion_newOf S rv2 L).getD a [] ≠ (V_deletion_newOf S rv2 L).getD b [] := by
    intro a b ha hb hab
    rw [← hnlen] at ha hb
    rw [List.getD_eq_getElem _ _ ha, List.getD_eq_getElem _ _ hb]
    rcases Nat.lt_or_ge a b with h | h
    · exact List.pairwise_iff_getElem.mp hdist a b ha hb h
    · exact (List.pairwise_iff_getElem.mp hdist b a hb ha
        (Nat.lt_of_le_of_ne h (fun he => hab he.symm))).symm
  have hinner : ∀ j ∈ Finset.range (V_deletionOf S rv2 L).length,
      (∑ i in Finset.range (popSizeOf S rv2 L),
        (if (V_deletion_newOf S rv2 L).getD i [] = (V_deletionOf S rv2 L).getD j []
         then (viralseq_freOf S rv2 L).getD j 0 else 0))
      = (viralseq_freOf S rv2 L).getD j 0 := by
    intro j hj
    rw [Finset.mem_range] at hj
    obtain ⟨i0, hi0, heq⟩ := hcover j hj
    rw [hnlen] at hi0
    rw [Finset.sum_eq_single_of_mem i0 (Finset.mem_range.mpr hi0)]
    · rw [if_pos heq]
    · intro b hb hbne
      rw [Finset.mem_range] at hb
      exact if_neg (fun hbeq => hret b i0 hb hi0 hbne (hbeq.trans heq.symm))
  have hmain : (viralseq_fre_newOf S rv2 L).sum
      = ∑ i in Finset.range (popSizeOf S rv2 L),
          ∑ j in Finset.range (V_deletionOf S rv2 L).length,
            (if (V_deletion_newOf S rv2 L).getD i [] = (V_deletionOf S rv2 L).getD j []
             then (viralseq_freOf S rv2 L).getD j 0 else 0) := by
    rw [viralseq_fre_newOf, list_range_map_sum]
    simp only [list_range_map_sum]
  rw [hmain, Finset.sum_comm]
  refine (Finset.sum_congr rfl hinner).trans ?_
  have hm : (V_deletionOf S rv2 L).length = (viralseq_freOf S rv2 L).length := by
    rw [V_deletion_length, viralseq_fre_length]
  rw [hm, ← list_range_map_sum, map_getD_range_q]
  exact viralseq_fre_sum S rv2 L hS hrv

/-- C7 (amended): the FASTA frequencies do sum to 1 exactly when the
rank-based truncation loses nothing — the retained `V_deletion_new` rows are
pairwise distinct and every `V_deletion` row equals some retained row. Then
the per-haplotype frequencies (which always total 1 for a nonempty read set)
are re-aggregated without loss by the `viralseq_fre_new` step and the
`Hashtable` collapse preserves the total, so the written frequencies sum
to 1. Without those hypotheses the total can fall short (see the
counterexample, total 2/3). -/
theorem fasta_freq_sum (S rv2 : List (List ℕ)) (L : ℕ) (Homoseq SNVpos : List ℕ)
    (hS : S ≠ []) (hrv : rv2 ≠ [])
    (hdist : List.Pairwise (fun a b => a ≠ b) (V_deletion_newOf S rv2 L))
    (hcover : ∀ j < (V_deletionOf S rv2 L).length,
      ∃ i < (V_deletion_newOf S rv2 L).length,
        (V_deletion_newOf S rv2 L).getD i [] = (V_deletionOf S rv2 L).getD j []) :
    (fastaFreqsOf S rv2 L Homoseq SNVpos).sum = 1 := by
  simp only [fastaFreqsOf]
  rw [permute_sum, hashTable_snd_sum]
  rw [Quasi_length, V_del_new_length, ← fre_new_length, map_getD_range_q]
  exact fre_new_sum S rv2 L hS hrv hdist hcover

theorem wit_fre_count : fre_countOf witS witRV 2 = [2, 1] := by decide

theorem wit_V_del : V_deletionOf witS witRV 2 = [[1, 2], [2, 1]] := by decide

theorem wit_popSize : popSizeOf witS witRV 2 = 2 := by decide

theorem wit_fre : viralseq_freOf witS witRV 2 = [2 / 3, 1 / 3] := by
  rw [viralseq_freOf, wit_fre_count]
  norm_num

theorem wit_index : viralfre_indexOf witS witRV 2 = [0, 1] := by
  rw [viralfre_indexOf, wit_fre]
  norm_num [argsortDesc, argsortAsc, insertAsc, List.range_succ]

theorem wit_V_del_new : V_deletion_newOf witS witRV 2 = [[1, 2], [2, 1]] := by
  rw [V_deletion_newOf, wit_index, wit_popSize, wit_V_del]
  rfl

/-- Witness for C7 (amended) on a full-rank run: three reads, two retained
distinct haplotypes covering every voted row; the FASTA frequencies
(2/3 and 1/3) total 1. -/
theorem fasta_freq_sum_witness :
    ((witS ≠ []) ∧ (witRV ≠ [])
      ∧ List.Pairwise (fun a b => a ≠ b) (V_deletion_newOf witS witRV 2)
      ∧ (∀ j < (V_deletionOf witS witRV 2).length,
          ∃ i < (V_deletion_newOf witS witRV 2).length,
            (V_deletion_newOf witS witRV 2).getD i []
              = (V_deletionOf witS witRV 2).getD j []))
    ∧ (fastaFreqsOf witS witRV 2 [1, 1] [0, 1]).sum = 1 := by
  have hdist : List.Pairwise (fun a b => a ≠ b) (V_deletion_newOf witS witRV 2) := by
    rw [wit_V_del_new]
    decide
  have hcover : ∀ j < (V_deletionOf witS witRV 2).length,
      ∃ i < (V_deletion_newOf witS witRV 2).length,
        (V_deletion_newOf witS witRV 2).getD i []
          = (V_deletionOf witS witRV 2).getD j [] := by
    rw [wit_V_del_new, wit_V_del]
    decide
  exact ⟨⟨by decide, by decide, hdist, hcover⟩,
    fasta_freq_sum witS witRV 2 [1, 1] [0, 1] (by decide) (by decide) hdist hcover⟩

/-- Witness for C4 at a concrete matrix with gaps and one without. -/
theorem tensor_roundtrip_witness :
    ((∀ row ∈ [[1, 2], [3, 4]], row.length = 2)
      ∧ (∀ row ∈ [[1, 2], [3, 4]], ∀ x ∈ row, x ≤ 4)
      ∧ (∀ row ∈ [[1, 2], [3, 4]], ∀ x ∈ row, 1 ≤ x))
    ∧ decodeTensor (tensorOf [[1, 2], [3, 4]]) 2 = [[1, 2], [3, 4]]
    ∧ (∀ i < ([[0, 3]] : List (List ℕ)).length, ∀ j < 2, entryOf [[0, 3]] i j ≠ 0 →
        entryOf (decodeTensor (tensorOf [[0, 3]]) 2) i j = entryOf [[0, 3]] i j) :=
  ⟨⟨by decide, by decide, by decide⟩,
    (tensor_roundtrip [[1, 2], [3, 4]] 2 (by decide) (by decide)).1 (by decide),
    (tensor_roundtrip [[0, 3]] 2 (by decide) (by decide)).2⟩

end TenSQR
